import Mathlib

/-!
Verification of proyecto2, a distributed exhaustive search.

A shallow embedding of the two programs of the repository,

* `parte2/algoritmo_mpi.c`: master/worker task farm over the base-36 keyspace,
* `parte3/bruteforce.c`: striped DES key search with collective voting,

followed by theorems about the embedded functions.  Unsigned 64-bit values are
natural numbers reduced modulo `2 ^ 64` wherever the C code can wrap.
-/

/-- Modulus of `uint64_t` arithmetic. -/
def U64 : Nat := 2 ^ 64

/-- The constant `UINT64_MAX`. -/
def UINT64_MAX : Nat := 2 ^ 64 - 1

/-- The constant `INT_MAX`: the largest value of an `int` (process counts, lengths). -/
def INT_MAX : Nat := 2 ^ 31 - 1

namespace AlgoritmoMpi

/-! ### Constants and configuration -/

/-- The alphabet `DIGITS[] = "abcdefghijklmnopqrstuvwxyz0123456789"`. -/
def DIGITS : List Char := "abcdefghijklmnopqrstuvwxyz0123456789".toList

/-- The constant `RADIX = 36`. -/
def RADIX : Nat := 36

/-- The string terminator written by `out[len] = 0`. -/
def NUL : Char := Char.ofNat 0

/-- The enumeration `Strategy`. -/
inductive Strategy where
  | STRAT_CONTIG
  | STRAT_SHUFFLE
  deriving DecidableEq, Repr

/-- The fields of `Config` that the search reads (`prefix`, `print_targets`, `debug` and
`progress_step` only drive console output). -/
structure Config where
  len : Int
  n_live : Int
  seed : Nat
  stop_on_first : Bool
  strategy : Strategy
  deriving DecidableEq, Repr

/-! ### Utilities -/

/-- The loop of `powu`: `n` iterations are left and `r` is the running product.
`if (r > UINT64_MAX / a) die("overflow"); r *= a;` -/
def powuLoop (a : Nat) : Nat → Nat → Except String Nat
  | 0, r => Except.ok r
  | n + 1, r =>
    if r > UINT64_MAX / a then Except.error "overflow"
    else powuLoop a n (r * a % U64)

/-- The function `powu(a, b)`: the loop `for (int i = 0; i < b; ++i)` runs `b` times for
a positive `b` and not at all otherwise; `die` is the error outcome. -/
def powu (a : Nat) (b : Int) : Except String Nat :=
  powuLoop a b.toNat 1

/-- The function `splitmix64(&x)`: returns the drawn value and the new state `*x`. -/
def splitmix64 (x : Nat) : Nat × Nat :=
  let x1 := (x + 0x9E3779B97F4A7C15) % U64
  let z := x1
  let z := ((z ^^^ (z >>> 30)) * 0xBF58476D1CE4E5B9) % U64
  let z := ((z ^^^ (z >>> 27)) * 0x94D049BB133111EB) % U64
  (z ^^^ (z >>> 31), x1)

/-- The inner loop of `make_targets`:
`for (int j = 0; j < k; ++j) if (T[j] == cand) { ok = 0; break; }`, where `T` lists the `k`
slots filled so far; returns `ok`. -/
def candidateOk (T : List Nat) (cand : Nat) : Bool :=
  match T with
  | [] => true
  | t :: rest => if t = cand then false else candidateOk rest cand

/-- The outer loop `for (int k = 0; k < n_live; )` of `make_targets`: `s` is the generator
state and `T` the slots filled so far (`k = T.length`).  `none` when the fuel runs out
before `n_live` slots are filled. -/
def targetsLoop (total n_live : Nat) : Nat → Nat → List Nat → Option (List Nat)
  | 0, _, T => if T.length < n_live then none else some T
  | fuel + 1, s, T =>
    if T.length < n_live then
      let cand := (splitmix64 s).1 % total
      let s1 := (splitmix64 s).2
      if candidateOk T cand then targetsLoop total n_live fuel s1 (T ++ [cand])
      else targetsLoop total n_live fuel s1 T
    else some T

/-- The function `make_targets(total, n_live, seed)`; the `NULL` returned for
`n_live <= 0` is the empty array. -/
def make_targets (total : Nat) (n_live : Int) (seed : Nat) (fuel : Nat) : Option (List Nat) :=
  if n_live ≤ 0 then some []
  else targetsLoop total n_live.toNat fuel (if seed ≠ 0 then seed else 1) []

/-- The loop of `is_target` from index `i` with `n` iterations left:
`if (T[i] == idx) return 1;`. -/
def is_targetLoop (idx : Nat) (T : List Nat) : Nat → Nat → Bool
  | 0, _ => false
  | n + 1, i => if T.get? i = some idx then true else is_targetLoop idx T n (i + 1)

/-- The function `is_target(idx, T, n_live)`. -/
def is_target (idx : Nat) (T : List Nat) (n_live : Int) : Bool :=
  is_targetLoop idx T n_live.toNat 0

/-- The loop `for (int i = len - 1; i >= 0; --i)` of `index_to_base36`, with `n = i + 1`
iterations left: `out[i] = DIGITS[idx % RADIX]; idx /= RADIX;`. -/
def index_to_base36_loop : Nat → Nat → List Char → List Char
  | 0, _, out => out
  | i + 1, idx, out =>
    index_to_base36_loop i (idx / RADIX) (out.set i (DIGITS.getD (idx % RADIX) NUL))

/-- The function `index_to_base36(idx, len, out)`: the buffer `out` after the call. -/
def index_to_base36 (idx len : Nat) (out : List Char) : List Char :=
  (index_to_base36_loop len idx out).set len NUL

/-- The C string held by a buffer: the characters before the first terminator. -/
def cstr (buf : List Char) : List Char :=
  buf.takeWhile (fun c => c ≠ NUL)

/-- The function `subprefix_id_to_chars(sp_id, &c0, &c1)`: returns `(c0, c1)`. -/
def subprefix_id_to_chars (sp_id : Nat) : Char × Char :=
  let c1 := DIGITS.getD (sp_id % RADIX) NUL
  let sp_id := sp_id / RADIX
  let c0 := DIGITS.getD (sp_id % RADIX) NUL
  (c0, c1)

/-- Modelled from the spec: the value of a symbol, "the inverse of the alphabet lookup";
the source only encodes and has no decoder. -/
def digitValue (c : Char) : Option Nat :=
  if DIGITS.indexOf c < RADIX then some (DIGITS.indexOf c) else none

/-- Modelled from the spec: `decode(string) -> index`, positional base-`RADIX` value of a
string, most-significant symbol first, defined only on strings over the alphabet; the
source has no decoder. -/
def decode (s : List Char) : Option Nat :=
  s.foldl (fun acc c =>
    match acc, digitValue c with
    | some a, some d => some (a * RADIX + d)
    | _, _ => none) (some 0)

/-- Proof device, not in the source: the symbols of `idx` on `n` positions,
most-significant first: the last symbol is `DIGITS[idx % RADIX]` and the ones before it
are the symbols of `idx / RADIX`. -/
def symbols : Nat → Nat → List Char
  | 0, _ => []
  | n + 1, idx => symbols n (idx / RADIX) ++ [DIGITS.getD (idx % RADIX) NUL]

/-! ### The master -/

/-- The constant `SUBSPACE = powu(RADIX, 2)` of `run_master`. -/
def SUBSPACE : Nat := 1296

/-- The message `AssignMsg`. -/
structure AssignMsg where
  subprefix_id : Nat
  valid : Bool
  deriving DecidableEq, Repr

/-- The local variables of `run_master` that change while it runs. -/
structure MasterState where
  workers : Int
  next_task : Nat
  ids : List Nat
  pos : Nat
  stop_broadcasted : Bool
  deriving DecidableEq, Repr

/-- The Fisher-Yates loop `for (uint64_t i = SUBSPACE - 1; i > 0; --i)` of `run_master`
with `n` iterations left (the current index is `i = n`):
`j = splitmix64(&s) % (i + 1); t = ids[i]; ids[i] = ids[j]; ids[j] = t;`. -/
def shuffleLoop : Nat → Nat → List Nat → List Nat
  | 0, _, ids => ids
  | i + 1, s, ids =>
    let j := (splitmix64 s).1 % (i + 1 + 1)
    let s1 := (splitmix64 s).2
    let t := ids.getD (i + 1) 0
    let ids := ids.set (i + 1) (ids.getD j 0)
    let ids := ids.set j t
    shuffleLoop i s1 ids

/-- The shuffled queue of `run_master`: `ids[i] = i` for `i < SUBSPACE`, then the
Fisher-Yates loop seeded with `cfg->seed ? cfg->seed : 1`. -/
def shuffledIds (seed : Nat) : List Nat :=
  shuffleLoop (SUBSPACE - 1) (if seed ≠ 0 then seed else 1) (List.range SUBSPACE)

/-- The state of `run_master` when it enters its main loop. -/
def masterInit (cfg : Config) (world : Int) : MasterState :=
  { workers := world - 1
    next_task := 0
    ids := if cfg.strategy = Strategy.STRAT_SHUFFLE then shuffledIds cfg.seed else []
    pos := 0
    stop_broadcasted := false }

/-- The value `remaining` computed when a request is serviced (unsigned subtraction). -/
def remaining (cfg : Config) (st : MasterState) : Nat :=
  if cfg.strategy = Strategy.STRAT_SHUFFLE then (SUBSPACE + U64 - st.pos) % U64
  else (SUBSPACE + U64 - st.next_task) % U64

/-- Servicing one request in `run_master` (the body of `if (flag_req)`): the reply sent
with `TAG_ASSIGN` and the state afterwards. -/
def on_request (cfg : Config) (st : MasterState) : AssignMsg × MasterState :=
  if st.stop_broadcasted ∨ remaining cfg st = 0 then
    ({ subprefix_id := 0, valid := false }, { st with workers := st.workers - 1 })
  else if cfg.strategy = Strategy.STRAT_SHUFFLE then
    ({ subprefix_id := st.ids.getD st.pos 0, valid := true },
      { st with pos := (st.pos + 1) % U64 })
  else
    ({ subprefix_id := st.next_task, valid := true },
      { st with next_task := (st.next_task + 1) % U64 })

/-- Servicing one found-notification in `run_master` (the body of `if (flag_found)`):
whether the stop is broadcast now, and the state afterwards. -/
def on_found (cfg : Config) (st : MasterState) : Bool × MasterState :=
  if cfg.stop_on_first ∧ ¬ st.stop_broadcasted then
    (true, { st with stop_broadcasted := true })
  else (false, st)

/-- A message received by the master: `TAG_FOUND` with its index, or `TAG_REQ`. -/
inductive Event where
  | found (src : Nat) (idx : Nat)
  | request (src : Nat)
  deriving DecidableEq, Repr

/-- A message sent by the master: the `TAG_STOP` broadcast to ranks `1 .. world - 1`, or a
`TAG_ASSIGN` reply. -/
inductive Sent where
  | stop
  | assign (dst : Nat) (msg : AssignMsg)
  deriving DecidableEq, Repr

/-- The main loop `while (workers > 0)` of `run_master` over the messages it receives, in
the order it services them: the messages sent and the final state.  Messages that arrive
after the loop has ended are not serviced. -/
def run_master (cfg : Config) : MasterState → List Event → List Sent × MasterState
  | st, [] => ([], st)
  | st, ev :: evs =>
    if st.workers > 0 then
      match ev with
      | Event.found _ _ =>
        let r := on_found cfg st
        let rest := run_master cfg r.2 evs
        (if r.1 then Sent.stop :: rest.1 else rest.1, rest.2)
      | Event.request src =>
        let r := on_request cfg st
        let rest := run_master cfg r.2 evs
        (Sent.assign src r.1 :: rest.1, rest.2)
    else ([], st)

/-- The `TAG_ASSIGN` replies among the messages sent, in order. -/
def replies : List Sent → List AssignMsg
  | [] => []
  | Sent.stop :: rest => replies rest
  | Sent.assign _ msg :: rest => msg :: replies rest

/-- The subprefix ids carried by the valid assignments that precede the first invalid
reply. -/
def issuedIds (rs : List AssignMsg) : List Nat :=
  (rs.takeWhile (fun m => m.valid)).map (fun m => m.subprefix_id)

/-- The order in which the configured strategy hands out the ids: `next_task++` counts
`0, 1, ..`, and `ids[pos++]` walks the shuffled queue. -/
def schedule (cfg : Config) : List Nat :=
  if cfg.strategy = Strategy.STRAT_SHUFFLE then shuffledIds cfg.seed
  else List.range SUBSPACE

/-- The cursor of the configured order: `pos` for the shuffled queue, `next_task`
otherwise. -/
def cursor (cfg : Config) (st : MasterState) : Nat :=
  if cfg.strategy = Strategy.STRAT_SHUFFLE then st.pos else st.next_task

/-- What holds of the master's state all along a run: the cursor of the configured order
has not passed `SUBSPACE`, and the shuffled queue is the one built at the start. -/
def MasterInv (cfg : Config) (st : MasterState) : Prop :=
  cursor cfg st ≤ SUBSPACE ∧
    (cfg.strategy = Strategy.STRAT_SHUFFLE → st.ids = shuffledIds cfg.seed)

/-- The id a valid reply carries: `ids[pos]` for the shuffled queue, `next_task`
otherwise (the operand of `ids[pos++]` and of `next_task++`). -/
def idAtCursor (cfg : Config) (st : MasterState) : Nat :=
  if cfg.strategy = Strategy.STRAT_SHUFFLE then st.ids.getD st.pos 0 else st.next_task

/-! ### The worker -/

/-- The value `base_idx = msg.subprefix_id * REMSPACE` of `run_worker`. -/
def base_idx (subprefix_id REMSPACE : Nat) : Nat :=
  subprefix_id * REMSPACE % U64

/-- The value `idx = base_idx + r` tested in the scan loop of `run_worker`. -/
def scan_idx (subprefix_id REMSPACE r : Nat) : Nat :=
  (base_idx subprefix_id REMSPACE + r) % U64

/-- The indices tested by `for (uint64_t r = 0; r < REMSPACE; ++r)` for one assignment
when the loop runs to its end. -/
def scanned (subprefix_id REMSPACE : Nat) : List Nat :=
  (List.range REMSPACE).map (fun r => scan_idx subprefix_id REMSPACE r)

end AlgoritmoMpi

namespace AlgoritmoMpi

/-! ### The master and the workers together -/

/-- Why a worker left its loop `while (1)`: the `break` after a received `TAG_STOP` at the
head of the loop, the `break` on an invalid assignment, or the final
`if (cfg->stop_on_first && found_here) break;`. -/
inductive ExitReason where
  | stopSeen
  | noMoreWork
  | foundHere
  deriving DecidableEq, Repr

/-- Where a worker stands in `run_worker`: at the head of `while (1)`, blocked in the
`MPI_Recv` of the assignment, at the head of the scan loop with its counter `r` and
`found_here`, or out of the loop. -/
inductive WorkerPc where
  | top
  | waiting
  | scanning (subprefix_id r : Nat) (found_here : Bool)
  | exited (why : ExitReason)
  deriving DecidableEq, Repr

/-- One worker with the messages in flight between it and the master: `req`, a `TAG_REQ`
sent and not yet received; `assign`, a `TAG_ASSIGN` sent and not yet received; `stops`,
the `TAG_STOP` messages sent and not yet received; `found_q`, the `TAG_FOUND` messages sent
and not yet received, oldest first.  Three records of what the worker has done so far:
`tested`, the indices passed to `is_target`; `sent`, the indices of all `TAG_FOUND` it has
sent; `completed`, the ids whose scan loop ran to `r == REMSPACE`. -/
structure Worker where
  pc : WorkerPc
  req : Bool
  assign : Option AssignMsg
  stops : Nat
  found_q : List Nat
  tested : List Nat
  sent : List Nat
  completed : List Nat
  deriving DecidableEq, Repr

/-- The whole program: the master, the workers of ranks `1 .. world - 1` (position `i`
holds rank `i + 1`), and two records of what the master has done so far: `received`, the
indices of the `TAG_FOUND` it has received, and `broadcasts`, the number of times it has
run the `TAG_STOP` loop. -/
structure Farm where
  master : MasterState
  procs : List Worker
  received : List Nat
  broadcasts : Nat
  deriving DecidableEq, Repr

/-- A worker when `run_worker` enters its loop. -/
def workerInit : Worker :=
  { pc := WorkerPc.top, req := false, assign := none, stops := 0, found_q := [],
    tested := [], sent := [], completed := [] }

/-- The program when the master and the workers enter their loops. -/
def farmInit (cfg : Config) (world : Int) : Farm :=
  { master := masterInit cfg world
    procs := List.replicate (world - 1).toNat workerInit
    received := []
    broadcasts := 0 }

/-- Where a worker goes when its scan loop is over:
`if (cfg->stop_on_first && found_here) break;`, else back to the head of `while (1)`. -/
def after_scan (cfg : Config) (found_here : Bool) : WorkerPc :=
  if cfg.stop_on_first = true ∧ found_here = true then WorkerPc.exited ExitReason.foundHere
  else WorkerPc.top

/-- One step of `run_worker`, from one blocking or probing point to the next; `sees_stop`
is the flag returned by the `MPI_Iprobe` for `TAG_STOP` when the step runs one, and it can
only be set when a `TAG_STOP` is in flight.  `none` when the worker cannot move.

* At the head of `while (1)`: on a seen stop, receive it and `break`; otherwise send the
  request.
* Blocked in `MPI_Recv`: take the assignment; `break` if it is not valid, else start the
  scan at `r = 0` with `found_here = 0`.
* In the scan loop with `r < REMSPACE`: test `idx = base_idx + r`; on a hit send
  `TAG_FOUND`, set `found_here` and `break` if `stop_on_first`; else probe for the stop and
  `break` on a seen stop; else `++r`.
* In the scan loop with `r == REMSPACE`: the loop is over. -/
def worker_step (cfg : Config) (REMSPACE : Nat) (targets : List Nat) (w : Worker)
    (sees_stop : Bool) : Option Worker :=
  match w.pc with
  | WorkerPc.top =>
    if sees_stop then
      if w.stops > 0 then
        some { w with stops := w.stops - 1, pc := WorkerPc.exited ExitReason.stopSeen }
      else none
    else some { w with req := true, pc := WorkerPc.waiting }
  | WorkerPc.waiting =>
    match w.assign with
    | none => none
    | some msg =>
      if msg.valid then
        some { w with assign := none, pc := WorkerPc.scanning msg.subprefix_id 0 false }
      else some { w with assign := none, pc := WorkerPc.exited ExitReason.noMoreWork }
  | WorkerPc.scanning id r found_here =>
    if r < REMSPACE then
      let idx := scan_idx id REMSPACE r
      let hit := is_target idx targets cfg.n_live
      let w1 : Worker :=
        { w with tested := w.tested ++ [idx]
                 found_q := if hit then w.found_q ++ [idx] else w.found_q
                 sent := if hit then w.sent ++ [idx] else w.sent }
      let found_here1 := found_here || hit
      if hit = true ∧ cfg.stop_on_first = true then
        some { w1 with pc := after_scan cfg found_here1 }
      else if sees_stop then
        if w.stops > 0 then
          some { w1 with stops := w.stops - 1, pc := after_scan cfg found_here1 }
        else none
      else some { w1 with pc := WorkerPc.scanning id (r + 1) found_here1 }
    else some { w with completed := w.completed ++ [id], pc := after_scan cfg found_here }
  | WorkerPc.exited _ => none

/-- What happens next in the program: the master receives the oldest `TAG_FOUND` of
worker `i`, the master receives the `TAG_REQ` of worker `i`, or worker `i` makes a step. -/
inductive Action where
  | masterFound (i : Nat)
  | masterRequest (i : Nat)
  | worker (i : Nat) (sees_stop : Bool)
  deriving DecidableEq, Repr

/-- One step of the program; `none` when the action cannot happen in this state.  The
master only moves while its loop `while (workers > 0)` runs.  On a `TAG_FOUND` it runs
`on_found` and, when that broadcasts, one `TAG_STOP` is put in flight to every worker; on
a `TAG_REQ` it runs `on_request` and puts the reply in flight to the requester. -/
def farm_step (cfg : Config) (REMSPACE : Nat) (targets : List Nat) (s : Farm) :
    Action → Option Farm
  | Action.masterFound i =>
    if s.master.workers > 0 then
      match s.procs.get? i with
      | none => none
      | some w =>
        match w.found_q with
        | [] => none
        | idx :: rest =>
          let r := on_found cfg s.master
          let procs1 := s.procs.set i { w with found_q := rest }
          some
            { master := r.2
              procs :=
                if r.1 then procs1.map (fun p => { p with stops := p.stops + 1 })
                else procs1
              received := s.received ++ [idx]
              broadcasts := if r.1 then s.broadcasts + 1 else s.broadcasts }
    else none
  | Action.masterRequest i =>
    if s.master.workers > 0 then
      match s.procs.get? i with
      | none => none
      | some w =>
        if w.req then
          let r := on_request cfg s.master
          some { s with master := r.2
                        procs := s.procs.set i { w with req := false, assign := some r.1 } }
        else none
    else none
  | Action.worker i sees_stop =>
    match s.procs.get? i with
    | none => none
    | some w =>
      match worker_step cfg REMSPACE targets w sees_stop with
      | none => none
      | some w1 => some { s with procs := s.procs.set i w1 }

/-- The program after a sequence of steps; `none` when one of them cannot happen. -/
def farm_exec (cfg : Config) (REMSPACE : Nat) (targets : List Nat) :
    Farm → List Action → Option Farm
  | s, [] => some s
  | s, a :: rest =>
    match farm_step cfg REMSPACE targets s a with
    | none => none
    | some s1 => farm_exec cfg REMSPACE targets s1 rest

/-- A state the program can be in: reached from the start by some sequence of steps. -/
def Reachable (cfg : Config) (REMSPACE : Nat) (targets : List Nat) (world : Int)
    (s : Farm) : Prop :=
  ∃ acts, farm_exec cfg REMSPACE targets (farmInit cfg world) acts = some s

/-- The worker has left its loop. -/
def Worker.hasExited (w : Worker) : Bool :=
  match w.pc with
  | WorkerPc.exited _ => true
  | _ => false

/-! ### What holds along every run with one worker -/

/-- The indices tested while the first `k` ids of the schedule are scanned in full. -/
def blockPrefix (cfg : Config) (REMSPACE k : Nat) : List Nat :=
  ((schedule cfg).take k).flatMap (fun id => scanned id REMSPACE)

/-- No stop has been broadcast and, under `stop_on_first`, nothing has been found. -/
def Quiet (cfg : Config) (s : Farm) (w : Worker) : Prop :=
  s.master.stop_broadcasted = false ∧ w.stops = 0 ∧ s.broadcasts = 0 ∧
    (cfg.stop_on_first = true → w.sent = [])

/-- What holds of the only worker `w` and the master, by the place where the worker
stands; `c` is the number of ids the master has issued. -/
def PcInv (cfg : Config) (REMSPACE : Nat) (s : Farm) (w : Worker) : WorkerPc → Prop
  | WorkerPc.top =>
    Quiet cfg s w ∧ s.master.workers = 1 ∧ w.req = false ∧ w.assign = none ∧
      w.tested = blockPrefix cfg REMSPACE (cursor cfg s.master) ∧
      w.completed = (schedule cfg).take (cursor cfg s.master)
  | WorkerPc.waiting =>
    Quiet cfg s w ∧
      ((w.req = true ∧ w.assign = none ∧ s.master.workers = 1 ∧
          w.tested = blockPrefix cfg REMSPACE (cursor cfg s.master) ∧
          w.completed = (schedule cfg).take (cursor cfg s.master)) ∨
        (w.req = false ∧ 1 ≤ cursor cfg s.master ∧
          w.assign = some
            { subprefix_id := (schedule cfg).getD (cursor cfg s.master - 1) 0,
              valid := true } ∧
          s.master.workers = 1 ∧
          w.tested = blockPrefix cfg REMSPACE (cursor cfg s.master - 1) ∧
          w.completed = (schedule cfg).take (cursor cfg s.master - 1)) ∨
        (w.req = false ∧ w.assign = some { subprefix_id := 0, valid := false } ∧
          s.master.workers = 0 ∧ cursor cfg s.master = SUBSPACE ∧
          w.tested = blockPrefix cfg REMSPACE SUBSPACE ∧
          w.completed = schedule cfg))
  | WorkerPc.scanning id r found_here =>
    Quiet cfg s w ∧ s.master.workers = 1 ∧ w.req = false ∧ w.assign = none ∧
      1 ≤ cursor cfg s.master ∧ id = (schedule cfg).getD (cursor cfg s.master - 1) 0 ∧
      r ≤ REMSPACE ∧ (cfg.stop_on_first = true → found_here = false) ∧
      w.tested = blockPrefix cfg REMSPACE (cursor cfg s.master - 1) ++
        (List.range r).map (fun x => scan_idx id REMSPACE x) ∧
      w.completed = (schedule cfg).take (cursor cfg s.master - 1)
  | WorkerPc.exited ExitReason.stopSeen => False
  | WorkerPc.exited ExitReason.noMoreWork =>
    Quiet cfg s w ∧ s.master.workers = 0 ∧ w.req = false ∧ w.assign = none ∧
      cursor cfg s.master = SUBSPACE ∧
      w.tested = blockPrefix cfg REMSPACE SUBSPACE ∧
      w.completed = schedule cfg
  | WorkerPc.exited ExitReason.foundHere =>
    cfg.stop_on_first = true ∧ s.master.workers = 1 ∧ w.req = false ∧ w.assign = none ∧
      1 ≤ cursor cfg s.master ∧
      ∃ r, r < REMSPACE ∧
        w.tested = blockPrefix cfg REMSPACE (cursor cfg s.master - 1) ++
          (List.range (r + 1)).map
            (fun x => scan_idx ((schedule cfg).getD (cursor cfg s.master - 1) 0) REMSPACE x) ∧
        w.sent =
          [scan_idx ((schedule cfg).getD (cursor cfg s.master - 1) 0) REMSPACE r] ∧
        ((s.master.stop_broadcasted = false ∧ w.stops = 0 ∧ s.broadcasts = 0 ∧
            s.received = []) ∨
          (s.master.stop_broadcasted = true ∧ w.stops = 1 ∧ s.broadcasts = 1 ∧
            s.received =
              [scan_idx ((schedule cfg).getD (cursor cfg s.master - 1) 0) REMSPACE r]))

/-- What holds in every state of a run with one worker: the master's cursor is within
`SUBSPACE`, the worker has sent a `TAG_FOUND` for exactly the tested indices that are
targets, the master has received the oldest of them in order, and `PcInv`. -/
def OneWorkerInv (cfg : Config) (REMSPACE : Nat) (targets : List Nat) (s : Farm) : Prop :=
  ∃ w, s.procs = [w] ∧ MasterInv cfg s.master ∧
    w.sent = w.tested.filter (fun idx => is_target idx targets cfg.n_live) ∧
    s.received ++ w.found_q = w.sent ∧
    PcInv cfg REMSPACE s w w.pc

/-! ### The scenarios of the specification -/

/-- The configuration of scenarios 1 and 2: `--len 2 --n_live 2`, the default seed, with
the stop-on-first flag and the scheduling order left open. -/
def scenarioCfg (stop_on_first : Bool) (strategy : Strategy) : Config :=
  { len := 2, n_live := 2, seed := 42, stop_on_first := stop_on_first,
    strategy := strategy }

/-- The target set of scenarios 1 and 2. -/
def scenarioTargets : List Nat := [5, 1000]

/-- One round of scenario 1 without a hit: the worker sends its request, the master
answers, the worker takes the assignment, tests its only index and ends the scan. -/
def scenarioRound : List Action :=
  [Action.worker 0 false, Action.masterRequest 0, Action.worker 0 false,
    Action.worker 0 false, Action.worker 0 false]

/-- The run of scenario 1: five rounds without a hit (ids 0 to 4), then the round of id 5
in which the worker sends `TAG_FOUND` for the index 5 and leaves, then the master receives
the notification. -/
def scenarioRun : List Action :=
  scenarioRound ++ scenarioRound ++ scenarioRound ++ scenarioRound ++ scenarioRound ++
    [Action.worker 0 false, Action.masterRequest 0, Action.worker 0 false,
      Action.worker 0 false, Action.masterFound 0]

end AlgoritmoMpi

namespace Bruteforce

/-- The key bound of `main`:
`maxk = (bits>=56) ? ((1ULL<<56)-1ULL) : ((1ULL<<bits)-1ULL)`, for `bits >= 0`. -/
def maxkOf (bits : Nat) : Nat :=
  if bits ≥ 56 then (1 <<< 56) - 1 else (1 <<< bits) - 1

/-- The loop header `for (uint64_t k=id; k<=maxk; k+=(uint64_t)N)` of `main`, followed while
the body does not break: the keys `k` for which the body runs, in the order they are visited,
starting from the current value `k`.  `none` when the fuel runs out before the loop ends. -/
def stripeFrom (N maxk : Nat) : Nat → Nat → Option (List Nat)
  | 0, _ => none
  | fuel + 1, k =>
    if k ≤ maxk then (stripeFrom N maxk fuel ((k + N) % U64)).map (fun ks => k :: ks)
    else some []

/-- The keys visited by rank `id` among `N` ranks: the loop started at `k = id`. -/
def stripe (N maxk id fuel : Nat) : Option (List Nat) :=
  stripeFrom N maxk fuel id

/-- The stripe of rank `id` as a list, with the fuel `maxk + 2` that always suffices. -/
def stripeKeys (N maxk id : Nat) : List Nat :=
  (stripe N maxk id (maxk + 2)).getD []

/-! ### Crib matching -/

/-- The test `memcmp(a, b, n) == 0`: the first `n` bytes of the two buffers agree. -/
def memcmp_eq (a b : List Nat) (n : Nat) : Bool :=
  decide (a.take n = b.take n)

/-- The loop `for (int i=0;i<=hlen-nlen;i++)` of `memmem_naive` from index `i` with `n`
iterations left: `if (memcmp(hay+i, ndl, nlen)==0) return 1;`. -/
def memmemLoop (hay ndl : List Nat) (nlen : Nat) : Nat → Nat → Bool
  | 0, _ => false
  | n + 1, i =>
    if memcmp_eq (hay.drop i) ndl nlen then true else memmemLoop hay ndl nlen n (i + 1)

/-- The function `memmem_naive(hay, hlen, ndl, nlen)`. -/
def memmem_naive (hay : List Nat) (hlen : Int) (ndl : List Nat) (nlen : Int) : Bool :=
  if nlen ≤ 0 ∨ hlen ≤ 0 ∨ nlen > hlen then false
  else memmemLoop hay ndl nlen.toNat (hlen - nlen + 1).toNat 0

/-- The C string held by a byte buffer: the bytes before the first zero byte. -/
def cstrBytes (buf : List Nat) : List Nat :=
  buf.takeWhile (fun b => b ≠ 0)

/-- The test `strstr(hay, ndl) != NULL` of the C library, on two buffers that hold C
strings: the string of `ndl` occurs inside the string of `hay`. -/
def strstr_found (hay ndl : List Nat) : Bool :=
  decide (cstrBytes ndl <:+: cstrBytes hay)

/-- The function `contains_crib_any(p, n, crib_text, crib_bytes, crib_bytes_len)`, with
`none` for a `NULL` pointer and `crib_text` a zero-terminated buffer; `malloc` is taken to
succeed.  The text branch copies the `n` bytes into `tmp`, writes `tmp[n]=0` and calls
`strstr(tmp, crib_text)`. -/
def contains_crib_any (p : List Nat) (n : Int) (crib_text : Option (List Nat))
    (crib_bytes : Option (List Nat)) (crib_bytes_len : Int) : Bool :=
  if crib_bytes.isSome ∧ crib_bytes_len > 0 then
    memmem_naive p n (crib_bytes.getD []) crib_bytes_len
  else
    match crib_text with
    | some ct =>
      if ct.headD 0 ≠ 0 then strstr_found (p.take n.toNat ++ [0]) ct
      else true
    | none => true

/-- The function `tryKey(key, ciph, len, crib_text, crib_bytes, crib_bytes_len)`; the
cipher `tirpc_ecb_crypt(key, tmp, len, 0)` is the parameter `decrypt`. -/
def tryKey (decrypt : Nat → List Nat → List Nat) (key : Nat) (ciph : List Nat) (len : Int)
    (crib_text : Option (List Nat)) (crib_bytes : Option (List Nat))
    (crib_bytes_len : Int) : Bool :=
  contains_crib_any (decrypt key (ciph.take len.toNat)) len crib_text crib_bytes
    crib_bytes_len

/-- The call of `tryKey` in the loop of `main`:
`tryKey(k, buf, n, (crib_blen>0?NULL:crib_text), (crib_blen>0?crib_b:NULL), crib_blen)`. -/
def tryKeyMain (decrypt : Nat → List Nat → List Nat) (k : Nat) (buf : List Nat) (n : Int)
    (crib_text : Option (List Nat)) (crib_b : List Nat) (crib_blen : Int) : Bool :=
  tryKey decrypt k buf n (if crib_blen > 0 then none else crib_text)
    (if crib_blen > 0 then some crib_b else none) crib_blen

/-! ### The search loop and its collective votes -/

/-- Where a rank stands. -/
inductive Status where
  | running
  | voting
  | agreed
  | left
  deriving DecidableEq, Repr

/-- The variables of one rank in the search loop of `main`, the number of times it has
called the vote `MPI_Allreduce(&f_local,&f_global,..)`, and where it stands: running the
loop, blocked in the vote, out of the loop by `break` after an agreed hit, or out of the
loop because `k <= maxk` failed. -/
structure Rank where
  id : Nat
  k : Nat
  f_local : Bool
  found_local : Nat
  f_global : Bool
  found_global : Nat
  votes : Nat
  status : Status
  deriving DecidableEq, Repr

/-- One rank runs the loop from its head at key `r.k`, on its own, up to its next call of
the vote or to the end of the loop: each iteration tests `oracle k` (the call of
`tryKey`), sets `found_local=k; f_local=1` on a hit, and calls the vote when
`f_local || (k % 4096 == id)`; otherwise `k += N`.  `none` when the fuel runs out. -/
def runToVote (oracle : Nat → Bool) (N maxk : Nat) : Nat → Rank → Option Rank
  | 0, _ => none
  | fuel + 1, r =>
    if r.k ≤ maxk then
      let hit := oracle r.k
      let found_local := if hit then r.k else r.found_local
      let f_local := if hit then true else r.f_local
      if f_local ∨ r.k % 4096 = r.id then
        some { r with f_local := f_local, found_local := found_local,
                      votes := r.votes + 1, status := Status.voting }
      else
        runToVote oracle N maxk fuel
          { r with k := (r.k + N) % U64, f_local := f_local, found_local := found_local }
    else some { r with status := Status.left }

/-- A running rank is run to its next stop; a rank that is blocked or out of the loop
stays as it is. -/
def advance (oracle : Nat → Bool) (N maxk fuel : Nat) (r : Rank) : Option Rank :=
  if r.status = Status.running then runToVote oracle N maxk fuel r else some r

/-- All ranks are run to their next stop. -/
def advanceAll (oracle : Nat → Bool) (N maxk fuel : Nat) : List Rank → Option (List Rank)
  | [] => some []
  | r :: rs =>
    match advance oracle N maxk fuel r, advanceAll oracle N maxk fuel rs with
    | some r1, some rs1 => some (r1 :: rs1)
    | _, _ => none

/-- The result of `MPI_Allreduce(.., MPI_MAX, ..)` over the `f_local` of all ranks. -/
def allreduceFlag (rs : List Rank) : Bool :=
  rs.any (fun r => r.f_local)

/-- The result of `MPI_Allreduce(.., MPI_MAX, ..)` over the `found_local` of all ranks. -/
def allreduceFound (rs : List Rank) : Nat :=
  rs.foldl (fun m r => max m r.found_local) 0

/-- The search of all ranks, vote by vote.  A collective completes only when every rank
has called it: when all ranks are blocked in the vote they all receive `f_global`; if it
is set they all call the second collective, receive `found_global` and `break`, otherwise
they all go on with `k += N`.  When no rank can move any more and not all of them are in
the vote, the run is over: either every rank has left the loop, or some rank waits for
ever in a vote that the ranks which left the loop never call.  `none` when the fuel runs
out. -/
def voteRounds (oracle : Nat → Bool) (N maxk : Nat) : Nat → List Rank → Option (List Rank)
  | 0, _ => none
  | fuel + 1, rs =>
    match advanceAll oracle N maxk (maxk + 2) rs with
    | none => none
    | some rs1 =>
      if rs1.all (fun r => r.status = Status.voting) then
        if allreduceFlag rs1 then
          some (rs1.map (fun r =>
            { r with f_global := true, found_global := allreduceFound rs1,
                     status := Status.agreed }))
        else
          voteRounds oracle N maxk fuel (rs1.map (fun r =>
            { r with f_global := false, k := (r.k + N) % U64, status := Status.running }))
      else some rs1

/-- The state of rank `id` when it enters the loop: `k=id`, nothing found. -/
def rankInit (id : Nat) : Rank :=
  { id := id, k := id, f_local := false, found_local := 0, f_global := false,
    found_global := 0, votes := 0, status := Status.running }

/-- The brute-force search of `main` on `N` ranks with the key bound `maxk`: the final
state of every rank. -/
def search (oracle : Nat → Bool) (N maxk : Nat) : Option (List Rank) :=
  voteRounds oracle N maxk (maxk + 2) ((List.range N).map rankInit)

/-- The keys at which rank `id` calls the vote when no key matches: the keys `k` of its
stripe with `k % 4096 == id`. -/
def votePoints (N maxk id : Nat) : List Nat :=
  (stripeKeys N maxk id).filter (fun k => k % 4096 = id)

end Bruteforce

/-! ## Theorems -/

namespace AlgoritmoMpi

/-! ### `powu` -/

theorem powuLoop_spec (a : Nat) (ha : 1 ≤ a) :
    ∀ n r, r ≤ UINT64_MAX →
      (r * a ^ n ≤ UINT64_MAX → powuLoop a n r = Except.ok (r * a ^ n)) ∧
      (UINT64_MAX < r * a ^ n → powuLoop a n r = Except.error "overflow") := by
  intro n
  induction n with
  | zero =>
    intro r hr
    refine ⟨fun _ => by simp [powuLoop], fun h => ?_⟩
    simp at h
    omega
  | succ n ih =>
    intro r hr
    unfold powuLoop
    have hpos : 0 < a := ha
    have hpow : 1 ≤ a ^ n := Nat.one_le_pow _ _ hpos
    have hassoc : r * a ^ (n + 1) = r * a * a ^ n := by rw [pow_succ']; ring
    by_cases hgt : r > UINT64_MAX / a
    · rw [if_pos hgt]
      have hmul : UINT64_MAX < r * a := (Nat.div_lt_iff_lt_mul hpos).mp hgt
      have hbig : UINT64_MAX < r * a ^ (n + 1) := by
        rw [hassoc]
        calc UINT64_MAX < r * a := hmul
          _ = r * a * 1 := (Nat.mul_one _).symm
          _ ≤ r * a * a ^ n := Nat.mul_le_mul_left _ hpow
      exact ⟨fun h => absurd h (by omega), fun _ => rfl⟩
    · rw [if_neg hgt]
      have hmul : r * a ≤ UINT64_MAX := by
        by_contra hc
        exact hgt ((Nat.div_lt_iff_lt_mul hpos).mpr (by omega))
      have hmod : r * a % U64 = r * a := by
        apply Nat.mod_eq_of_lt
        simp only [UINT64_MAX, U64] at *
        omega
      rw [hmod, hassoc]
      exact ih (r * a) hmul

theorem powu_exact (x y : Nat) (hx : 1 ≤ x) :
    (x ^ y ≤ UINT64_MAX → powu x (y : Int) = Except.ok (x ^ y)) ∧
    (UINT64_MAX < x ^ y → powu x (y : Int) = Except.error "overflow") := by
  have hone : (1 : Nat) ≤ UINT64_MAX := by simp [UINT64_MAX]
  have h := powuLoop_spec x hx y 1 hone
  simp only [Nat.one_mul] at h
  simpa [powu] using h

/-- C5 (keyspace size with overflow detection).  For a radix `a ≥ 1` and an exponent
`b ≥ 0`, `powu(a, b)` returns exactly `a ^ b` when `a ^ b ≤ UINT64_MAX` and ends in
`die("overflow")` otherwise, so it never returns a wrapped value; for the radix 36 it
returns `36 ^ L` for every length `L ≤ 12` and dies for every longer one. -/
theorem powu_overflow_detection (a b : Nat) (ha : 1 ≤ a) :
    (a ^ b ≤ UINT64_MAX → powu a (b : Int) = Except.ok (a ^ b)) ∧
    (UINT64_MAX < a ^ b → powu a (b : Int) = Except.error "overflow") ∧
    (∀ v, powu a (b : Int) = Except.ok v → v = a ^ b) ∧
    (∀ L : Nat, (L ≤ 12 → powu RADIX (L : Int) = Except.ok (36 ^ L)) ∧
      (12 < L → powu RADIX (L : Int) = Except.error "overflow")) := by
  have main : ∀ x y : Nat, 1 ≤ x →
      (x ^ y ≤ UINT64_MAX → powu x (y : Int) = Except.ok (x ^ y)) ∧
      (UINT64_MAX < x ^ y → powu x (y : Int) = Except.error "overflow") := powu_exact
  refine ⟨(main a b ha).1, (main a b ha).2, ?_, ?_⟩
  · intro v hv
    by_cases hle : a ^ b ≤ UINT64_MAX
    · rw [(main a b ha).1 hle] at hv
      exact (Except.ok.inj hv).symm
    · rw [(main a b ha).2 (by omega)] at hv
      cases hv
  · intro L
    constructor
    · intro hL
      apply (main RADIX L (by simp [RADIX])).1
      calc RADIX ^ L ≤ 36 ^ 12 := Nat.pow_le_pow_right (by norm_num [RADIX]) hL
        _ ≤ UINT64_MAX := by norm_num [UINT64_MAX]
    · intro hL
      apply (main RADIX L (by simp [RADIX])).2
      calc UINT64_MAX < 36 ^ 13 := by norm_num [UINT64_MAX]
        _ ≤ RADIX ^ L := Nat.pow_le_pow_right (by norm_num [RADIX]) hL

/-- Witness of `powu_overflow_detection`: the radix 36 with the exponent 7 of the default
configuration. -/
theorem powu_overflow_detection_witness :
    (36 ^ 7 ≤ UINT64_MAX → powu 36 ((7 : Nat) : Int) = Except.ok (36 ^ 7)) ∧
    (UINT64_MAX < 36 ^ 7 → powu 36 ((7 : Nat) : Int) = Except.error "overflow") ∧
    (∀ v, powu 36 ((7 : Nat) : Int) = Except.ok v → v = 36 ^ 7) ∧
    (∀ L : Nat, (L ≤ 12 → powu RADIX (L : Int) = Except.ok (36 ^ L)) ∧
      (12 < L → powu RADIX (L : Int) = Except.error "overflow")) :=
  powu_overflow_detection 36 7 (by decide)

end AlgoritmoMpi

namespace AlgoritmoMpi

/-! ### `index_to_base36` -/

theorem symbols_length : ∀ n idx, (symbols n idx).length = n := by
  intro n
  induction n with
  | zero => intro idx; rfl
  | succ n ih => intro idx; simp [symbols, ih]

theorem digit_facts : ∀ m, m < 36 →
    DIGITS.getD m NUL ∈ DIGITS ∧ DIGITS.getD m NUL ≠ NUL ∧
      digitValue (DIGITS.getD m NUL) = some m := by
  decide

theorem symbols_mem : ∀ n idx c, c ∈ symbols n idx → c ∈ DIGITS ∧ c ≠ NUL := by
  intro n
  induction n with
  | zero => intro idx c h; simp [symbols] at h
  | succ n ih =>
    intro idx c h
    simp only [symbols, List.mem_append, List.mem_singleton] at h
    rcases h with h | h
    · exact ih _ c h
    · subst h
      have := digit_facts (idx % RADIX) (Nat.mod_lt _ (by decide))
      exact ⟨this.1, this.2.1⟩

theorem symbols_get : ∀ n idx j, j < n →
    (symbols n idx)[j]? = some (DIGITS.getD (idx / RADIX ^ (n - 1 - j) % RADIX) NUL) := by
  intro n
  induction n with
  | zero => intro idx j h; omega
  | succ n ih =>
    intro idx j hj
    simp only [symbols]
    by_cases hlt : j < n
    · rw [List.getElem?_append_left (by rw [symbols_length]; exact hlt), ih _ _ hlt]
      have : n + 1 - 1 - j = (n - 1 - j) + 1 := by omega
      rw [this, pow_succ', Nat.div_div_eq_div_mul]
    · have hjn : j = n := by omega
      subst hjn
      rw [List.getElem?_append_right (by rw [symbols_length])]
      simp [symbols_length]

theorem decode_append_digit (s : List Char) (a m : Nat) (hm : m < RADIX)
    (hs : decode s = some a) :
    decode (s ++ [DIGITS.getD m NUL]) = some (a * RADIX + m) := by
  unfold decode at hs ⊢
  rw [List.foldl_append, hs]
  simp only [List.foldl_cons, List.foldl_nil]
  rw [(digit_facts m hm).2.2]

theorem decode_symbols : ∀ n idx, decode (symbols n idx) = some (idx % RADIX ^ n) := by
  intro n
  induction n with
  | zero => intro idx; simp [symbols, decode, Nat.mod_one]
  | succ n ih =>
    intro idx
    simp only [symbols]
    rw [decode_append_digit _ _ _ (Nat.mod_lt _ (by decide)) (ih (idx / RADIX))]
    congr 1
    rw [pow_succ', Nat.mod_mul]
    ring

theorem drop_set_self {α : Type} (d : α) : ∀ (out : List α) n, n < out.length →
    (out.set n d).drop n = d :: out.drop (n + 1) := by
  intro out
  induction out with
  | nil => intro n h; simp at h
  | cons x xs ih =>
    intro n h
    cases n with
    | zero => simp
    | succ n => simpa using ih n (by simpa using h)

theorem index_to_base36_loop_eq : ∀ n idx (out : List Char), n ≤ out.length →
    index_to_base36_loop n idx out = symbols n idx ++ out.drop n := by
  intro n
  induction n with
  | zero => intro idx out _; simp [index_to_base36_loop, symbols]
  | succ n ih =>
    intro idx out hn
    unfold index_to_base36_loop
    rw [ih _ _ (by simp; omega)]
    simp only [symbols, List.append_assoc, List.singleton_append]
    congr 1
    exact drop_set_self _ out n hn

theorem cstr_symbols (n idx : Nat) (rest : List Char) :
    cstr (symbols n idx ++ NUL :: rest) = symbols n idx := by
  unfold cstr
  rw [List.takeWhile_append_of_pos]
  · simp
  · intro c hc
    simpa using (symbols_mem n idx c hc).2

theorem index_to_base36_eq (idx len : Nat) (out : List Char) (hbuf : len < out.length) :
    index_to_base36 idx len out = symbols len idx ++ NUL :: out.drop (len + 1) := by
  unfold index_to_base36
  rw [index_to_base36_loop_eq _ _ _ (le_of_lt hbuf)]
  rw [List.set_append_right _ _ (by rw [symbols_length])]
  rw [symbols_length, Nat.sub_self]
  congr 1
  cases h : out.drop len with
  | nil =>
    have := congrArg List.length h
    simp at this
    omega
  | cons x xs =>
    have h2 : out.drop (len + 1) = xs := by
      rw [← List.drop_drop 1 len out]; simp [h]
    simp [h2]

/-- C4 (codec round trip).  For every length `L` (in particular `L ≥ 1`), every index
`i < 36 ^ L` and every buffer with room for `L` symbols and the terminator,
`index_to_base36(i, L, out)` leaves in the buffer a string of exactly `L` symbols, each
one of the 36 symbols of `DIGITS`, with the symbol of weight `36 ^ (L - 1 - j)` at
position `j` (most-significant first); decoding that string positionally in base 36
gives back `i`. -/
theorem codec_round_trip (L i : Nat) (out : List Char) (hi : i < 36 ^ L)
    (hbuf : L < out.length) :
    (cstr (index_to_base36 i L out)).length = L ∧
    (∀ c, c ∈ cstr (index_to_base36 i L out) → c ∈ DIGITS) ∧
    (∀ j, j < L → (cstr (index_to_base36 i L out))[j]? =
        some (DIGITS.getD (i / 36 ^ (L - 1 - j) % 36) NUL)) ∧
    decode (cstr (index_to_base36 i L out)) = some i := by
  rw [index_to_base36_eq i L out hbuf, cstr_symbols]
  refine ⟨symbols_length L i, fun c hc => (symbols_mem L i c hc).1, ?_, ?_⟩
  · intro j hj
    exact symbols_get L i j hj
  · rw [decode_symbols]
    congr 1
    exact Nat.mod_eq_of_lt hi

/-- Witness of `codec_round_trip`: the index 1000 on two symbols, written as `12`, in a
buffer of three characters. -/
theorem codec_round_trip_witness :
    cstr (index_to_base36 1000 2 ['?', '?', '?']) = ['1', '2'] ∧
    (cstr (index_to_base36 1000 2 ['?', '?', '?'])).length = 2 ∧
    (∀ c, c ∈ cstr (index_to_base36 1000 2 ['?', '?', '?']) → c ∈ DIGITS) ∧
    (∀ j, j < 2 → (cstr (index_to_base36 1000 2 ['?', '?', '?']))[j]? =
        some (DIGITS.getD (1000 / 36 ^ (2 - 1 - j) % 36) NUL)) ∧
    decode (cstr (index_to_base36 1000 2 ['?', '?', '?'])) = some 1000 :=
  ⟨by decide, codec_round_trip 2 1000 ['?', '?', '?'] (by decide) (by decide)⟩

end AlgoritmoMpi

namespace AlgoritmoMpi

/-! ### The shuffled queue and the ids issued by the master -/

theorem swap_getD_perm (l : List Nat) (i j : Nat) (hi : i < l.length) (hj : j < l.length) :
    ((l.set i (l.getD j 0)).set j (l.getD i 0)).Perm l := by
  rw [List.perm_iff_count]
  intro b
  have e1 : l.getD j 0 = l[j] := by simp [List.getD_eq_getElem?_getD, hj]
  have e2 : l.getD i 0 = l[i] := by simp [List.getD_eq_getElem?_getD, hi]
  rw [e1, e2]
  have hj' : j < (l.set i l[j]).length := by simpa using hj
  rw [List.count_set _ _ _ _ hj', List.count_set _ _ _ _ hi]
  have hget : (l.set i l[j])[j] = l[j] := by
    rw [List.getElem_set]
    split <;> simp_all
  rw [hget]
  have hci : (if (l[i] == b) = true then 1 else 0) ≤ l.count b := by
    split
    · rename_i h
      have hb : l[i] = b := by simpa using h
      have : b ∈ l := hb ▸ List.getElem_mem hi
      exact List.count_pos_iff.mpr this
    · exact Nat.zero_le _
  omega

theorem shuffleLoop_perm : ∀ n s (ids : List Nat), n < ids.length →
    (shuffleLoop n s ids).Perm ids := by
  intro n
  induction n with
  | zero => intro s ids _; exact List.Perm.refl _
  | succ i ih =>
    intro s ids hlen
    rw [shuffleLoop]
    have hj : (splitmix64 s).1 % (i + 1 + 1) < ids.length :=
      lt_of_lt_of_le (Nat.mod_lt _ (by omega)) (by omega)
    have hswap := swap_getD_perm ids (i + 1) _ hlen hj
    refine List.Perm.trans (ih _ _ ?_) hswap
    rw [hswap.length_eq]
    omega

theorem shuffledIds_perm (seed : Nat) : (shuffledIds seed).Perm (List.range SUBSPACE) := by
  unfold shuffledIds
  apply shuffleLoop_perm
  rw [List.length_range]
  decide

theorem schedule_perm (cfg : Config) : (schedule cfg).Perm (List.range SUBSPACE) := by
  unfold schedule
  split
  · exact shuffledIds_perm _
  · exact List.Perm.refl _

theorem schedule_length (cfg : Config) : (schedule cfg).length = SUBSPACE := by
  rw [(schedule_perm cfg).length_eq, List.length_range]

theorem remaining_eq_zero_iff (cfg : Config) (st : MasterState)
    (h : cursor cfg st ≤ SUBSPACE) : remaining cfg st = 0 ↔ cursor cfg st = SUBSPACE := by
  unfold remaining cursor at *
  split <;> simp_all only [U64, SUBSPACE, if_true, if_false] <;> omega

theorem on_request_invalid (cfg : Config) (st : MasterState)
    (h : st.stop_broadcasted = true ∨ cursor cfg st = SUBSPACE) :
    on_request cfg st =
      ({ subprefix_id := 0, valid := false }, { st with workers := st.workers - 1 }) := by
  have hc : st.stop_broadcasted = true ∨ remaining cfg st = 0 := by
    rcases h with h | h
    · exact Or.inl h
    · exact Or.inr ((remaining_eq_zero_iff cfg st (le_of_eq h)).mpr h)
  unfold on_request
  rw [if_pos hc]

theorem on_request_contig (cfg : Config) (st : MasterState)
    (hs : cfg.strategy ≠ Strategy.STRAT_SHUFFLE)
    (hstop : st.stop_broadcasted = false) (hlt : cursor cfg st < SUBSPACE) :
    on_request cfg st =
      ({ subprefix_id := st.next_task, valid := true },
        { st with next_task := st.next_task + 1 }) := by
  have hc : ¬ (st.stop_broadcasted = true ∨ remaining cfg st = 0) := by
    rw [remaining_eq_zero_iff cfg st (le_of_lt hlt)]
    simp [hstop]
    omega
  have hmod : (st.next_task + 1) % U64 = st.next_task + 1 := by
    apply Nat.mod_eq_of_lt
    simp only [cursor, if_neg hs, SUBSPACE] at hlt
    simp only [U64]
    omega
  unfold on_request
  rw [if_neg hc, if_neg hs, hmod]

theorem on_request_shuffle (cfg : Config) (st : MasterState)
    (hs : cfg.strategy = Strategy.STRAT_SHUFFLE)
    (hstop : st.stop_broadcasted = false) (hlt : cursor cfg st < SUBSPACE) :
    on_request cfg st =
      ({ subprefix_id := st.ids.getD st.pos 0, valid := true },
        { st with pos := st.pos + 1 }) := by
  have hc : ¬ (st.stop_broadcasted = true ∨ remaining cfg st = 0) := by
    rw [remaining_eq_zero_iff cfg st (le_of_lt hlt)]
    simp [hstop]
    omega
  have hmod : (st.pos + 1) % U64 = st.pos + 1 := by
    apply Nat.mod_eq_of_lt
    simp only [cursor, if_pos hs, SUBSPACE] at hlt
    simp only [U64]
    omega
  unfold on_request
  rw [if_neg hc, if_pos hs, hmod]

/-- A valid reply under the invariant: it carries the id the schedule holds at the
cursor, the cursor moves one step and the invariant is kept. -/
theorem on_request_valid (cfg : Config) (st : MasterState) (hinv : MasterInv cfg st)
    (hstop : st.stop_broadcasted = false) (hlt : cursor cfg st < SUBSPACE) :
    (on_request cfg st).1 =
        { subprefix_id := (schedule cfg).getD (cursor cfg st) 0, valid := true } ∧
      cursor cfg (on_request cfg st).2 = cursor cfg st + 1 ∧
      MasterInv cfg (on_request cfg st).2 ∧
      (on_request cfg st).2.stop_broadcasted = false ∧
      (on_request cfg st).2.workers = st.workers := by
  by_cases hs : cfg.strategy = Strategy.STRAT_SHUFFLE
  · rw [on_request_shuffle cfg st hs hstop hlt]
    have hids := hinv.2 hs
    simp only [cursor, if_pos hs] at hlt
    refine ⟨?_, ?_, ⟨?_, fun _ => hids⟩, hstop, rfl⟩
    · simp [schedule, cursor, hs, hids]
    · simp [cursor, hs]
    · simp only [cursor, if_pos hs]; omega
  · rw [on_request_contig cfg st hs hstop hlt]
    simp only [cursor, if_neg hs] at hlt
    refine ⟨?_, ?_, ⟨?_, fun h => absurd h hs⟩, hstop, rfl⟩
    · have hget : (List.range SUBSPACE).getD st.next_task 0 = st.next_task := by
        rw [List.getD_eq_getElem?_getD, List.getElem?_range hlt, Option.getD_some]
      simp only [schedule, cursor, if_neg hs]
      rw [hget]
    · simp [cursor, hs]
    · simp only [cursor, if_neg hs]; omega

theorem masterInit_inv (cfg : Config) (world : Int) :
    MasterInv cfg (masterInit cfg world) ∧ cursor cfg (masterInit cfg world) = 0 ∧
      (masterInit cfg world).stop_broadcasted = false := by
  refine ⟨⟨?_, ?_⟩, ?_, rfl⟩
  · simp [cursor, masterInit]
  · intro hs; simp [masterInit, hs]
  · simp [cursor, masterInit]

theorem run_master_cons (cfg : Config) (st : MasterState) (ev : Event) (evs : List Event) :
    run_master cfg st (ev :: evs) =
      if st.workers > 0 then
        match ev with
        | Event.found _ _ =>
          ((if (on_found cfg st).1 then
              Sent.stop :: (run_master cfg (on_found cfg st).2 evs).1
            else (run_master cfg (on_found cfg st).2 evs).1),
            (run_master cfg (on_found cfg st).2 evs).2)
        | Event.request src =>
          (Sent.assign src (on_request cfg st).1 ::
              (run_master cfg (on_request cfg st).2 evs).1,
            (run_master cfg (on_request cfg st).2 evs).2)
      else ([], st) := by
  cases ev <;> simp [run_master]

theorem run_master_stop_mono (cfg : Config) : ∀ evs st, st.stop_broadcasted = true →
    (run_master cfg st evs).2.stop_broadcasted = true := by
  intro evs
  induction evs with
  | nil => intro st h; simpa [run_master] using h
  | cons ev evs ih =>
    intro st h
    rw [run_master_cons]
    by_cases hw : st.workers > 0
    · rw [if_pos hw]
      cases ev with
      | found src idx =>
        apply ih
        simp [on_found, h]
      | request src =>
        apply ih
        rw [on_request_invalid cfg st (Or.inl h)]
        exact h
    · rw [if_neg hw]
      exact h

theorem issuedIds_cons (m : AssignMsg) (rs : List AssignMsg) :
    issuedIds (m :: rs) = if m.valid then m.subprefix_id :: issuedIds rs else [] := by
  unfold issuedIds
  by_cases h : m.valid <;> simp [List.takeWhile_cons, h]

theorem drop_eq_getD_cons (l : List Nat) (c : Nat) (h : c < l.length) :
    l.drop c = l.getD c 0 :: l.drop (c + 1) := by
  rw [List.drop_eq_getElem_cons h]
  simp [List.getD_eq_getElem?_getD, h]

/-- The ids issued along a run in which no stop is broadcast follow the schedule from the
cursor on, and reach its end once an invalid reply has been sent. -/
theorem run_master_issued (cfg : Config) : ∀ evs st, MasterInv cfg st →
    (run_master cfg st evs).2.stop_broadcasted = false →
    issuedIds (replies (run_master cfg st evs).1) <+: (schedule cfg).drop (cursor cfg st) ∧
    ((∃ m, m ∈ replies (run_master cfg st evs).1 ∧ m.valid = false) →
      issuedIds (replies (run_master cfg st evs).1) =
        (schedule cfg).drop (cursor cfg st)) := by
  intro evs
  induction evs with
  | nil =>
    intro st _ _
    simp [run_master, replies, issuedIds]
  | cons ev evs ih =>
    intro st hinv hfin
    rw [run_master_cons] at hfin ⊢
    by_cases hw : st.workers > 0
    · rw [if_pos hw] at hfin ⊢
      have hst : st.stop_broadcasted = false := by
        by_contra hc
        have ht : st.stop_broadcasted = true := by simpa using hc
        have := run_master_stop_mono cfg (ev :: evs) st ht
        rw [run_master_cons, if_pos hw] at this
        rw [this] at hfin
        cases hfin
      cases ev with
      | found src idx =>
        simp only at hfin ⊢
        by_cases hsf : cfg.stop_on_first = true
        · have hon : on_found cfg st = (true, { st with stop_broadcasted := true }) := by
            simp [on_found, hsf, hst]
          rw [hon] at hfin
          have := run_master_stop_mono cfg evs { st with stop_broadcasted := true } rfl
          rw [this] at hfin
          cases hfin
        · have hon : on_found cfg st = (false, st) := by
            simp [on_found, hsf]
          rw [hon] at hfin ⊢
          simpa using ih st hinv hfin
      | request src =>
        simp only at hfin ⊢
        simp only [replies]
        rw [issuedIds_cons]
        by_cases hlt : cursor cfg st < SUBSPACE
        · obtain ⟨hmsg, hcur, hinv2, -, -⟩ := on_request_valid cfg st hinv hst hlt
          have hih := ih _ hinv2 hfin
          rw [hcur] at hih
          have hdrop := drop_eq_getD_cons (schedule cfg) (cursor cfg st)
            (by rw [schedule_length]; exact hlt)
          rw [hmsg]
          simp only [if_true]
          rw [hdrop]
          refine ⟨?_, ?_⟩
          · obtain ⟨t, ht⟩ := hih.1
            exact ⟨t, by rw [List.cons_append, ht]⟩
          · rintro ⟨m, hm, hv⟩
            rcases List.mem_cons.mp hm with h | h
            · rw [h] at hv; cases hv
            · rw [hih.2 ⟨m, h, hv⟩]
        · have heq : cursor cfg st = SUBSPACE := le_antisymm hinv.1 (not_lt.mp hlt)
          rw [on_request_invalid cfg st (Or.inr heq)]
          have hnil : (schedule cfg).drop (cursor cfg st) = [] := by
            apply List.drop_eq_nil_of_le
            rw [schedule_length, heq]
          simp [hnil]
    · rw [if_neg hw]
      simp [replies, issuedIds]

/-- C2 (centralized coverage).  For every configuration (any seed, contiguous or shuffled
order), any number of processes and any sequence of messages serviced by the master, if no
stop has been broadcast by the end of the run then the subprefix ids of the valid
assignments issued before the first invalid reply are an initial part of the schedule,
and once an invalid reply has been sent they are the whole schedule: 1296 ids, a
permutation of `[0, 1296)` without repetition.  In particular the seeded Fisher-Yates
shuffle of `ids[0..1295]` is a permutation of `[0, 1296)` for every seed. -/
theorem centralized_coverage (cfg : Config) (world : Int) (evs : List Event)
    (hstop : (run_master cfg (masterInit cfg world) evs).2.stop_broadcasted = false) :
    issuedIds (replies (run_master cfg (masterInit cfg world) evs).1) <+: schedule cfg ∧
    ((∃ m, m ∈ replies (run_master cfg (masterInit cfg world) evs).1 ∧ m.valid = false) →
      issuedIds (replies (run_master cfg (masterInit cfg world) evs).1) = schedule cfg) ∧
    (schedule cfg).length = 1296 ∧
    (schedule cfg).Perm (List.range 1296) ∧
    (schedule cfg).Nodup ∧
    (∀ seed, (shuffledIds seed).Perm (List.range 1296)) := by
  obtain ⟨hinv, hcur, -⟩ := masterInit_inv cfg world
  have h := run_master_issued cfg evs (masterInit cfg world) hinv hstop
  rw [hcur, List.drop_zero] at h
  refine ⟨h.1, h.2, schedule_length cfg, schedule_perm cfg, ?_, shuffledIds_perm⟩
  exact (schedule_perm cfg).nodup_iff.mpr (List.nodup_range _)

theorem on_request_stop (cfg : Config) (st : MasterState) :
    (on_request cfg st).2.stop_broadcasted = st.stop_broadcasted := by
  unfold on_request
  split
  · rfl
  · split <;> rfl

theorem requests_keep_stop (cfg : Config) (src : Nat) : ∀ n st,
    st.stop_broadcasted = false →
    (run_master cfg st (List.replicate n (Event.request src))).2.stop_broadcasted = false := by
  intro n
  induction n with
  | zero => intro st h; simpa [run_master] using h
  | succ n ih =>
    intro st h
    rw [List.replicate_succ, run_master_cons]
    by_cases hw : st.workers > 0
    · rw [if_pos hw]
      exact ih _ (by rw [on_request_stop]; exact h)
    · rw [if_neg hw]; exact h

theorem requests_reach_invalid (cfg : Config) (src : Nat) : ∀ k n st,
    MasterInv cfg st → st.stop_broadcasted = false → st.workers > 0 →
    cursor cfg st + k = SUBSPACE → k < n →
    ∃ m, m ∈ replies (run_master cfg st (List.replicate n (Event.request src))).1 ∧
      m.valid = false := by
  intro k
  induction k with
  | zero =>
    intro n st _ _ hw hcur hn
    obtain ⟨n', rfl⟩ : ∃ n', n = n' + 1 := ⟨n - 1, by omega⟩
    rw [List.replicate_succ, run_master_cons, if_pos hw]
    rw [on_request_invalid cfg st (Or.inr (by omega))]
    exact ⟨{ subprefix_id := 0, valid := false }, by simp [replies], rfl⟩
  | succ k ih =>
    intro n st hinv hst hw hcur hn
    obtain ⟨n', rfl⟩ : ∃ n', n = n' + 1 := ⟨n - 1, by omega⟩
    rw [List.replicate_succ, run_master_cons, if_pos hw]
    obtain ⟨-, hcur2, hinv2, hst2, hw2⟩ := on_request_valid cfg st hinv hst (by omega)
    obtain ⟨m, hm, hv⟩ := ih n' _ hinv2 hst2 (by rw [hw2]; exact hw) (by omega) (by omega)
    exact ⟨m, by simp only [replies]; exact List.mem_cons_of_mem _ hm, hv⟩

/-- Witness of `centralized_coverage`: one worker (two processes), the shuffled order
with seed 42, and 1297 requests serviced in a row; no stop is broadcast, the last
request is answered with an invalid reply, and the ids issued are the whole schedule. -/
theorem centralized_coverage_witness :
    (run_master
        { len := 2, n_live := 2, seed := 42, stop_on_first := true,
          strategy := Strategy.STRAT_SHUFFLE }
        (masterInit
          { len := 2, n_live := 2, seed := 42, stop_on_first := true,
            strategy := Strategy.STRAT_SHUFFLE } 2)
        (List.replicate 1297 (Event.request 1))).2.stop_broadcasted = false ∧
    issuedIds (replies (run_master
        { len := 2, n_live := 2, seed := 42, stop_on_first := true,
          strategy := Strategy.STRAT_SHUFFLE }
        (masterInit
          { len := 2, n_live := 2, seed := 42, stop_on_first := true,
            strategy := Strategy.STRAT_SHUFFLE } 2)
        (List.replicate 1297 (Event.request 1))).1) =
      schedule
        { len := 2, n_live := 2, seed := 42, stop_on_first := true,
          strategy := Strategy.STRAT_SHUFFLE } ∧
    (schedule
        { len := 2, n_live := 2, seed := 42, stop_on_first := true,
          strategy := Strategy.STRAT_SHUFFLE }).Perm (List.range 1296) :=
  have hstop := requests_keep_stop
    { len := 2, n_live := 2, seed := 42, stop_on_first := true,
      strategy := Strategy.STRAT_SHUFFLE } 1 1297 _ (masterInit_inv _ 2).2.2
  have hex := requests_reach_invalid
    { len := 2, n_live := 2, seed := 42, stop_on_first := true,
      strategy := Strategy.STRAT_SHUFFLE } 1 1296 1297 _ (masterInit_inv _ 2).1
      (masterInit_inv _ 2).2.2 (by decide)
      (by rw [(masterInit_inv _ 2).2.1]; rfl) (by decide)
  ⟨hstop, (centralized_coverage _ 2 _ hstop).2.1 hex,
    (centralized_coverage _ 2 _ hstop).2.2.2.1⟩

end AlgoritmoMpi
namespace AlgoritmoMpi

/-! ### Servicing a request -/

theorem on_request_inv (cfg : Config) (st : MasterState) (hinv : MasterInv cfg st) :
    MasterInv cfg (on_request cfg st).2 := by
  by_cases h : st.stop_broadcasted = true ∨ cursor cfg st = SUBSPACE
  · rw [on_request_invalid cfg st h]
    exact hinv
  · have hstop : st.stop_broadcasted = false := by
      cases hb : st.stop_broadcasted with
      | false => rfl
      | true => exact absurd (Or.inl hb) h
    have hlt : cursor cfg st < SUBSPACE :=
      lt_of_le_of_ne hinv.1 (fun he => h (Or.inr he))
    exact (on_request_valid cfg st hinv hstop hlt).2.2.1

theorem on_found_inv (cfg : Config) (st : MasterState) (hinv : MasterInv cfg st) :
    MasterInv cfg (on_found cfg st).2 := by
  unfold on_found
  split
  · exact hinv
  · exact hinv

/-- Every state a run of the master reaches keeps the cursor within `SUBSPACE`. -/
theorem run_master_inv (cfg : Config) : ∀ evs st, MasterInv cfg st →
    MasterInv cfg (run_master cfg st evs).2 := by
  intro evs
  induction evs with
  | nil => intro st h; simpa [run_master] using h
  | cons ev evs ih =>
    intro st h
    rw [run_master_cons]
    by_cases hw : st.workers > 0
    · rw [if_pos hw]
      cases ev with
      | found src idx => exact ih _ (on_found_inv cfg st h)
      | request src => exact ih _ (on_request_inv cfg st h)
    · rw [if_neg hw]
      exact h

/-- C9 (coordinator `on_request`).  In every state of the master whose cursor has not
passed `SUBSPACE = 1296` (every state a run reaches), servicing one request answers
`valid = false` iff the stop has been broadcast or the cursor of the configured order
stands at 1296; in that case the reply carries `subprefix_id = 0`, the live-worker counter
drops by exactly one and nothing else changes (the cursor stays); otherwise the reply is
valid and carries the id at the cursor, that cursor advances by exactly one, and the
live-worker counter, the stop flag and the queue are unchanged. -/
theorem on_request_contract (cfg : Config) (st : MasterState)
    (hcur : cursor cfg st ≤ SUBSPACE) :
    ((on_request cfg st).1.valid = false ↔
      (st.stop_broadcasted = true ∨ cursor cfg st = SUBSPACE)) ∧
    ((st.stop_broadcasted = true ∨ cursor cfg st = SUBSPACE) →
      (on_request cfg st).1 = { subprefix_id := 0, valid := false } ∧
      (on_request cfg st).2 = { st with workers := st.workers - 1 } ∧
      (on_request cfg st).2.workers = st.workers - 1 ∧
      cursor cfg (on_request cfg st).2 = cursor cfg st) ∧
    (¬ (st.stop_broadcasted = true ∨ cursor cfg st = SUBSPACE) →
      (on_request cfg st).1 = { subprefix_id := idAtCursor cfg st, valid := true } ∧
      cursor cfg (on_request cfg st).2 = cursor cfg st + 1 ∧
      (on_request cfg st).2.workers = st.workers ∧
      (on_request cfg st).2.stop_broadcasted = st.stop_broadcasted ∧
      (on_request cfg st).2.ids = st.ids) := by
  have hinvalid : (st.stop_broadcasted = true ∨ cursor cfg st = SUBSPACE) →
      (on_request cfg st).1 = { subprefix_id := 0, valid := false } ∧
      (on_request cfg st).2 = { st with workers := st.workers - 1 } ∧
      (on_request cfg st).2.workers = st.workers - 1 ∧
      cursor cfg (on_request cfg st).2 = cursor cfg st := by
    intro h
    rw [on_request_invalid cfg st h]
    exact ⟨rfl, rfl, rfl, rfl⟩
  have hvalid : ¬ (st.stop_broadcasted = true ∨ cursor cfg st = SUBSPACE) →
      (on_request cfg st).1 = { subprefix_id := idAtCursor cfg st, valid := true } ∧
      cursor cfg (on_request cfg st).2 = cursor cfg st + 1 ∧
      (on_request cfg st).2.workers = st.workers ∧
      (on_request cfg st).2.stop_broadcasted = st.stop_broadcasted ∧
      (on_request cfg st).2.ids = st.ids := by
    intro h
    have hstop : st.stop_broadcasted = false := by
      cases hb : st.stop_broadcasted with
      | false => rfl
      | true => exact absurd (Or.inl hb) h
    have hlt : cursor cfg st < SUBSPACE :=
      lt_of_le_of_ne hcur (fun he => h (Or.inr he))
    by_cases hs : cfg.strategy = Strategy.STRAT_SHUFFLE
    · rw [on_request_shuffle cfg st hs hstop hlt]
      simp [idAtCursor, cursor, hs]
    · rw [on_request_contig cfg st hs hstop hlt]
      simp [idAtCursor, cursor, hs]
  refine ⟨⟨?_, fun h => by rw [(hinvalid h).1]⟩, hinvalid, hvalid⟩
  intro hv
  by_contra hc
  rw [(hvalid hc).1] at hv
  cases hv

/-- Witness of `on_request_contract`: the first request of a contiguous run with one
worker is answered with the valid id 0 and moves the cursor to 1. -/
theorem on_request_contract_witness :
    on_request
        { len := 2, n_live := 2, seed := 42, stop_on_first := true,
          strategy := Strategy.STRAT_CONTIG }
        { workers := 1, next_task := 0, ids := [], pos := 0, stop_broadcasted := false } =
      ({ subprefix_id := 0, valid := true },
        { workers := 1, next_task := 1, ids := [], pos := 0, stop_broadcasted := false }) ∧
    ((on_request
        { len := 2, n_live := 2, seed := 42, stop_on_first := true,
          strategy := Strategy.STRAT_CONTIG }
        { workers := 1, next_task := 0, ids := [], pos := 0,
          stop_broadcasted := false }).1.valid = false ↔
      ((false = true) ∨
        cursor
          { len := 2, n_live := 2, seed := 42, stop_on_first := true,
            strategy := Strategy.STRAT_CONTIG }
          { workers := 1, next_task := 0, ids := [], pos := 0,
            stop_broadcasted := false } = SUBSPACE)) :=
  ⟨by decide,
    (on_request_contract
      { len := 2, n_live := 2, seed := 42, stop_on_first := true,
        strategy := Strategy.STRAT_CONTIG }
      { workers := 1, next_task := 0, ids := [], pos := 0, stop_broadcasted := false }
      (by decide)).1⟩

end AlgoritmoMpi

namespace AlgoritmoMpi

/-! ### The subranges scanned by the workers -/

theorem flatMap_blocks (E : Nat) : ∀ n,
    (List.range n).flatMap (fun id => (List.range E).map (fun r => id * E + r)) =
      List.range (n * E) := by
  intro n
  induction n with
  | zero => simp
  | succ n ih =>
    rw [List.range_succ, List.flatMap_append, ih, Nat.succ_mul, List.range_add]
    simp

theorem scan_idx_exact (E id r : Nat) (hrep : SUBSPACE * E ≤ UINT64_MAX)
    (hid : id < SUBSPACE) (hr : r < E) :
    scan_idx id E r = id * E + r ∧ scan_idx id E r < SUBSPACE * E := by
  have hbound : id * E + r < SUBSPACE * E := by
    calc id * E + r < id * E + E := by omega
      _ = (id + 1) * E := by ring
      _ ≤ SUBSPACE * E := Nat.mul_le_mul_right _ hid
  have hle : id * E ≤ id * E + r := Nat.le_add_right _ _
  have h1 : id * E % U64 = id * E := by
    apply Nat.mod_eq_of_lt
    simp only [U64, UINT64_MAX] at *
    omega
  have h2 : (id * E + r) % U64 = id * E + r := by
    apply Nat.mod_eq_of_lt
    simp only [U64, UINT64_MAX] at *
    omega
  unfold scan_idx base_idx
  rw [h1, h2]
  exact ⟨rfl, hbound⟩

theorem scanned_exact (E id : Nat) (hrep : SUBSPACE * E ≤ UINT64_MAX) (hid : id < SUBSPACE) :
    scanned id E = (List.range E).map (fun r => id * E + r) := by
  unfold scanned
  apply List.map_congr_left
  intro r hr
  exact (scan_idx_exact E id r hrep hid (List.mem_range.mp hr)).1

theorem pow_split (L : Nat) (hL : 2 ≤ L) : 36 ^ L = SUBSPACE * 36 ^ (L - 2) := by
  have : L = 2 + (L - 2) := by omega
  conv_lhs => rw [this, pow_add]
  rfl

/-- C3 (subranges tile the keyspace).  For a length `L ≥ 2` with `36 ^ L` representable in
64 bits, `powu` gives `total = 36 ^ L` and `REMSPACE = 36 ^ (L - 2)`; for every id below
1296 and every `r < REMSPACE` the index `base_idx + r` tested by the worker is
`id * REMSPACE + r` without wrap-around and lies below `total`; every index below `total`
is tested for exactly one pair `(id, r)`; and the subranges of the ids of the schedule,
scanned in the order of issue (contiguous or shuffled), are a rearrangement of
`0, 1, .., total - 1`: each index once. -/
theorem subranges_tile (L : Nat) (hL : 2 ≤ L) (hrep : 36 ^ L ≤ UINT64_MAX) :
    powu RADIX (L : Int) = Except.ok (36 ^ L) ∧
    powu RADIX ((L : Int) - 2) = Except.ok (36 ^ (L - 2)) ∧
    (∀ id r, id < SUBSPACE → r < 36 ^ (L - 2) →
      scan_idx id (36 ^ (L - 2)) r = id * 36 ^ (L - 2) + r ∧
      scan_idx id (36 ^ (L - 2)) r < 36 ^ L) ∧
    (∀ idx, idx < 36 ^ L →
      ∃! p : Nat × Nat, p.1 < SUBSPACE ∧ p.2 < 36 ^ (L - 2) ∧
        scan_idx p.1 (36 ^ (L - 2)) p.2 = idx) ∧
    (∀ cfg : Config,
      ((schedule cfg).flatMap (fun id => scanned id (36 ^ (L - 2)))).Perm
        (List.range (36 ^ L))) := by
  have hsplit := pow_split L hL
  have hE : 0 < 36 ^ (L - 2) := Nat.pow_pos (by norm_num)
  have hrep' : SUBSPACE * 36 ^ (L - 2) ≤ UINT64_MAX := by rw [← hsplit]; exact hrep
  have hle : 36 ^ (L - 2) ≤ 36 ^ L := Nat.pow_le_pow_right (by norm_num) (by omega)
  have hp1 := (powu_exact 36 L (by norm_num)).1 hrep
  have hp2 := (powu_exact 36 (L - 2) (by norm_num)).1 (le_trans hle hrep)
  have hcast : ((L : Int) - 2) = ((L - 2 : Nat) : Int) := by omega
  refine ⟨hp1, by rw [hcast]; exact hp2, ?_, ?_, ?_⟩
  · intro id r hid hr
    have := scan_idx_exact _ id r hrep' hid hr
    exact ⟨this.1, by rw [hsplit]; exact this.2⟩
  · intro idx hidx
    rw [hsplit] at hidx
    refine ⟨(idx / 36 ^ (L - 2), idx % 36 ^ (L - 2)), ⟨?_, Nat.mod_lt _ hE, ?_⟩, ?_⟩
    · exact Nat.div_lt_of_lt_mul (by rw [Nat.mul_comm]; exact hidx)
    · have hid : idx / 36 ^ (L - 2) < SUBSPACE :=
        Nat.div_lt_of_lt_mul (by rw [Nat.mul_comm]; exact hidx)
      rw [(scan_idx_exact _ _ _ hrep' hid (Nat.mod_lt _ hE)).1, Nat.mul_comm]
      exact Nat.div_add_mod _ _
    · rintro ⟨id, r⟩ ⟨hid, hr, hscan⟩
      simp only at hid hr hscan
      rw [(scan_idx_exact _ id r hrep' hid hr).1] at hscan
      subst hscan
      have h1 : (id * 36 ^ (L - 2) + r) / 36 ^ (L - 2) = id := by
        rw [Nat.mul_comm, Nat.mul_add_div hE, Nat.div_eq_of_lt hr, Nat.add_zero]
      have h2 : (id * 36 ^ (L - 2) + r) % 36 ^ (L - 2) = r := by
        rw [Nat.mul_comm, Nat.mul_add_mod, Nat.mod_eq_of_lt hr]
      rw [h1, h2]
  · intro cfg
    have hcontig : (List.range SUBSPACE).flatMap (fun id => scanned id (36 ^ (L - 2))) =
        List.range (36 ^ L) := by
      rw [hsplit, ← flatMap_blocks]
      apply List.flatMap_congr
      intro id hid
      exact scanned_exact _ id hrep' (List.mem_range.mp hid)
    rw [← hcontig]
    exact List.Perm.flatMap_right _ (schedule_perm cfg)

/-- Witness of `subranges_tile`: the default length `L = 7`. -/
theorem subranges_tile_witness :
    powu RADIX ((7 : Nat) : Int) = Except.ok (36 ^ 7) ∧
    powu RADIX (((7 : Nat) : Int) - 2) = Except.ok (36 ^ (7 - 2)) ∧
    (∀ id r, id < SUBSPACE → r < 36 ^ (7 - 2) →
      scan_idx id (36 ^ (7 - 2)) r = id * 36 ^ (7 - 2) + r ∧
      scan_idx id (36 ^ (7 - 2)) r < 36 ^ 7) ∧
    (∀ idx, idx < 36 ^ 7 →
      ∃! p : Nat × Nat, p.1 < SUBSPACE ∧ p.2 < 36 ^ (7 - 2) ∧
        scan_idx p.1 (36 ^ (7 - 2)) p.2 = idx) ∧
    (∀ cfg : Config,
      ((schedule cfg).flatMap (fun id => scanned id (36 ^ (7 - 2)))).Perm
        (List.range (36 ^ 7))) :=
  subranges_tile 7 (by decide) (by decide)

end AlgoritmoMpi

namespace AlgoritmoMpi

/-! ### The target set -/

theorem candidateOk_iff (cand : Nat) : ∀ T : List Nat, candidateOk T cand = true ↔ cand ∉ T := by
  intro T
  induction T with
  | nil => simp [candidateOk]
  | cons t rest ih =>
    unfold candidateOk
    by_cases h : t = cand
    · simp [h]
    · rw [if_neg h, ih]
      simp [Ne.symm h]

theorem targetsLoop_spec (total n_live : Nat) (htotal : 1 ≤ total) : ∀ fuel s T0 T,
    T0.Nodup → (∀ t, t ∈ T0 → t < total) → T0.length ≤ n_live →
    targetsLoop total n_live fuel s T0 = some T →
    T.length = n_live ∧ T.Nodup ∧ (∀ t, t ∈ T → t < total) := by
  intro fuel
  induction fuel with
  | zero =>
    intro s T0 T hnd hlt hlen h
    unfold targetsLoop at h
    split at h
    · cases h
    · cases h
      exact ⟨by omega, hnd, hlt⟩
  | succ fuel ih =>
    intro s T0 T hnd hlt hlen h
    rw [targetsLoop] at h
    by_cases hk : T0.length < n_live
    · rw [if_pos hk] at h
      simp only at h
      by_cases hok : candidateOk T0 ((splitmix64 s).1 % total) = true
      · rw [if_pos hok] at h
        refine ih _ _ T ?_ ?_ ?_ h
        · rw [List.nodup_append]
          refine ⟨hnd, List.nodup_singleton _, ?_⟩
          intro a ha hb
          rw [List.mem_singleton] at hb
          subst hb
          exact (candidateOk_iff _ T0).mp hok ha
        · intro t ht
          rcases List.mem_append.mp ht with h1 | h1
          · exact hlt t h1
          · rw [List.mem_singleton] at h1
            subst h1
            exact Nat.mod_lt _ (by omega)
        · simp; omega
      · rw [if_neg hok] at h
        exact ih _ _ T hnd hlt hlen h
    · rw [if_neg hk] at h
      cases h
      exact ⟨by omega, hnd, hlt⟩

theorem targetsLoop_fuel_mono (total n_live : Nat) : ∀ fuel s T0 T,
    targetsLoop total n_live fuel s T0 = some T →
    ∀ fuel', fuel ≤ fuel' → targetsLoop total n_live fuel' s T0 = some T := by
  intro fuel
  induction fuel with
  | zero =>
    intro s T0 T h fuel' _
    unfold targetsLoop at h
    split at h
    · cases h
    · rename_i hk
      cases fuel' with
      | zero => unfold targetsLoop; rw [if_neg hk]; exact h
      | succ m => rw [targetsLoop, if_neg hk]; exact h
  | succ fuel ih =>
    intro s T0 T h fuel' hle
    obtain ⟨m, rfl⟩ : ∃ m, fuel' = m + 1 := ⟨fuel' - 1, by omega⟩
    rw [targetsLoop] at h ⊢
    by_cases hk : T0.length < n_live
    · rw [if_pos hk] at h ⊢
      simp only at h ⊢
      by_cases hok : candidateOk T0 ((splitmix64 s).1 % total) = true
      · rw [if_pos hok] at h ⊢
        exact ih _ _ T h m (by omega)
      · rw [if_neg hok] at h ⊢
        exact ih _ _ T h m (by omega)
    · rw [if_neg hk] at h ⊢
      exact h

theorem is_targetLoop_iff (idx : Nat) (T : List Nat) : ∀ n i,
    is_targetLoop idx T n i = true ↔ ∃ j, i ≤ j ∧ j < i + n ∧ T.get? j = some idx := by
  intro n
  induction n with
  | zero =>
    intro i
    simp only [is_targetLoop, Bool.false_eq_true, false_iff]
    rintro ⟨j, h1, h2, -⟩
    omega
  | succ n ih =>
    intro i
    rw [is_targetLoop]
    by_cases h : T.get? i = some idx
    · rw [if_pos h]
      simp only [true_iff]
      exact ⟨i, le_refl _, by omega, h⟩
    · rw [if_neg h, ih]
      constructor
      · rintro ⟨j, h1, h2, h3⟩
        exact ⟨j, by omega, by omega, h3⟩
      · rintro ⟨j, h1, h2, h3⟩
        have hne : j ≠ i := fun he => h (he ▸ h3)
        exact ⟨j, by omega, by omega, h3⟩

theorem is_target_iff_mem (idx : Nat) (T : List Nat) :
    is_target idx T (T.length : Int) = true ↔ idx ∈ T := by
  unfold is_target
  rw [Int.toNat_ofNat, is_targetLoop_iff]
  constructor
  · rintro ⟨j, -, -, h⟩
    exact List.get?_mem h
  · intro h
    obtain ⟨j, hj, hget⟩ := List.getElem_of_mem h
    exact ⟨j, Nat.zero_le _, by omega, by rw [List.get?_eq_getElem?, List.getElem?_eq_getElem hj, hget]⟩

/-- C6 (target set).  For `total ≥ 1`, any seed and `n_live ≥ 1`: whenever
`make_targets(total, n_live, seed)` returns (the rejection loop ends within some number of
draws, and then within any larger number with the same result), its result holds exactly
`n_live` indices, pairwise distinct, each below `total`; and `is_target(idx, T, n_live)`
is true iff `idx` is one of them. -/
theorem target_set (total n_live seed fuel : Nat) (T : List Nat)
    (htotal : 1 ≤ total) (hn : 1 ≤ n_live)
    (hret : make_targets total (n_live : Int) seed fuel = some T) :
    T.length = n_live ∧ T.Nodup ∧ (∀ t, t ∈ T → t < total) ∧
    (∀ idx, is_target idx T (n_live : Int) = true ↔ idx ∈ T) ∧
    (∀ fuel', fuel ≤ fuel' → make_targets total (n_live : Int) seed fuel' = some T) := by
  have hpos : ¬ ((n_live : Int) ≤ 0) := by omega
  unfold make_targets at hret
  rw [if_neg hpos, Int.toNat_ofNat] at hret
  obtain ⟨hlen, hnd, hlt⟩ := targetsLoop_spec total n_live htotal fuel _ [] T
    List.nodup_nil (by simp) (by simp) hret
  refine ⟨hlen, hnd, hlt, ?_, ?_⟩
  · intro idx
    rw [← hlen]
    exact is_target_iff_mem idx T
  · intro fuel' hle
    unfold make_targets
    rw [if_neg hpos, Int.toNat_ofNat]
    exact targetsLoop_fuel_mono total n_live fuel _ [] T hret fuel' hle

/-- Witness of `target_set`: the keyspace of length 2 (`total = 1296`), two targets and
the default seed 42; the first two draws are 613 and 451. -/
theorem target_set_witness :
    make_targets 1296 ((2 : Nat) : Int) 42 2 = some [613, 451] ∧
    ([613, 451].length = 2 ∧ [613, 451].Nodup ∧ (∀ t, t ∈ [613, 451] → t < 1296) ∧
    (∀ idx, is_target idx [613, 451] ((2 : Nat) : Int) = true ↔ idx ∈ [613, 451]) ∧
    (∀ fuel', 2 ≤ fuel' → make_targets 1296 ((2 : Nat) : Int) 42 fuel' = some [613, 451])) :=
  ⟨by decide, target_set 1296 2 42 2 [613, 451] (by decide) (by decide) (by decide)⟩

end AlgoritmoMpi

namespace AlgoritmoMpi

/-! ### Runs of the master with one worker -/

theorem farm_step_worker_one (cfg : Config) (REMSPACE : Nat) (targets : List Nat)
    (s : Farm) (w : Worker) (hp : s.procs = [w]) (i : Nat) (b : Bool) :
    farm_step cfg REMSPACE targets s (Action.worker i b) =
      if i = 0 then
        (worker_step cfg REMSPACE targets w b).map (fun w1 => { s with procs := [w1] })
      else none := by
  cases i with
  | zero =>
    simp only [farm_step, hp, List.get?_cons_zero, if_true]
    cases worker_step cfg REMSPACE targets w b <;> simp
  | succ n => simp [farm_step, hp]

theorem farm_step_request_one (cfg : Config) (REMSPACE : Nat) (targets : List Nat)
    (s : Farm) (w : Worker) (hp : s.procs = [w]) (i : Nat) :
    farm_step cfg REMSPACE targets s (Action.masterRequest i) =
      if s.master.workers > 0 ∧ i = 0 ∧ w.req = true then
        some { s with master := (on_request cfg s.master).2
                      procs := [{ w with req := false,
                                         assign := some (on_request cfg s.master).1 }] }
      else none := by
  cases i with
  | zero =>
    by_cases hw : s.master.workers > 0 <;> by_cases hr : w.req = true <;>
      simp [farm_step, hp, hw, hr]
  | succ n =>
    by_cases hw : s.master.workers > 0 <;> simp [farm_step, hp, hw]

theorem farm_step_found_one (cfg : Config) (REMSPACE : Nat) (targets : List Nat)
    (s : Farm) (w : Worker) (hp : s.procs = [w]) (i : Nat) :
    farm_step cfg REMSPACE targets s (Action.masterFound i) =
      if s.master.workers > 0 ∧ i = 0 then
        match w.found_q with
        | [] => none
        | idx :: rest =>
          some
            { master := (on_found cfg s.master).2
              procs :=
                if (on_found cfg s.master).1 then
                  [{ w with found_q := rest, stops := w.stops + 1 }]
                else [{ w with found_q := rest }]
              received := s.received ++ [idx]
              broadcasts :=
                if (on_found cfg s.master).1 then s.broadcasts + 1 else s.broadcasts }
      else none := by
  cases i with
  | zero =>
    by_cases hw : s.master.workers > 0
    · cases hq : w.found_q with
      | nil => simp [farm_step, hp, hw, hq]
      | cons idx rest =>
        by_cases hb : (on_found cfg s.master).1 = true <;>
          simp [farm_step, hp, hw, hq, hb]
    · simp [farm_step, hp, hw]
  | succ n =>
    by_cases hw : s.master.workers > 0 <;> simp [farm_step, hp, hw]

theorem take_succ_getD (l : List Nat) (c : Nat) (h : c < l.length) :
    l.take (c + 1) = l.take c ++ [l.getD c 0] := by
  rw [List.take_succ, List.getD_eq_getElem?_getD, List.getElem?_eq_getElem h]
  simp

theorem blockPrefix_succ (cfg : Config) (REMSPACE c : Nat) (h : c < SUBSPACE) :
    blockPrefix cfg REMSPACE (c + 1) =
      blockPrefix cfg REMSPACE c ++ scanned ((schedule cfg).getD c 0) REMSPACE := by
  unfold blockPrefix
  rw [take_succ_getD _ _ (by rw [schedule_length]; exact h), List.flatMap_append]
  simp

theorem blockPrefix_pred (cfg : Config) (REMSPACE c : Nat) (h1 : 1 ≤ c) (h : c ≤ SUBSPACE) :
    blockPrefix cfg REMSPACE (c - 1) ++
        (List.range REMSPACE).map
          (fun x => scan_idx ((schedule cfg).getD (c - 1) 0) REMSPACE x) =
      blockPrefix cfg REMSPACE c := by
  have hc : c = (c - 1) + 1 := by omega
  conv_rhs => rw [hc]
  rw [blockPrefix_succ cfg REMSPACE (c - 1) (by omega)]
  rfl

theorem take_pred_getD (cfg : Config) (c : Nat) (h1 : 1 ≤ c) (h : c ≤ SUBSPACE) :
    (schedule cfg).take (c - 1) ++ [(schedule cfg).getD (c - 1) 0] =
      (schedule cfg).take c := by
  have hc : c = (c - 1) + 1 := by omega
  conv_rhs => rw [hc]
  rw [take_succ_getD _ _ (by rw [schedule_length]; omega)]

theorem after_scan_false (cfg : Config) : after_scan cfg false = WorkerPc.top := by
  simp [after_scan]

/-- A step of the worker keeps `OneWorkerInv`. -/
theorem inv_worker (cfg : Config) (REMSPACE : Nat) (targets : List Nat) (s s' : Farm)
    (i : Nat) (b : Bool) (hinv : OneWorkerInv cfg REMSPACE targets s)
    (hstep : farm_step cfg REMSPACE targets s (Action.worker i b) = some s') :
    OneWorkerInv cfg REMSPACE targets s' := by
  obtain ⟨w, hp, hm, hsent, hrecv, hpc⟩ := hinv
  rw [farm_step_worker_one cfg REMSPACE targets s w hp] at hstep
  by_cases hi : i = 0
  swap
  · rw [if_neg hi] at hstep; cases hstep
  rw [if_pos hi] at hstep
  cases hw : worker_step cfg REMSPACE targets w b with
  | none => rw [hw] at hstep; cases hstep
  | some w1 =>
    rw [hw] at hstep
    simp only [Option.map_some'] at hstep
    cases hstep
    cases hpcv : w.pc with
    | top =>
      rw [hpcv] at hpc
      obtain ⟨hq, hwk, hreq, hasg, htest, hcomp⟩ := hpc
      simp only [worker_step, hpcv] at hw
      cases b with
      | true =>
        have h0 := hq.2.1
        simp [h0] at hw
      | false =>
        simp only [Bool.false_eq_true, if_false, Option.some.injEq] at hw
        subst hw
        exact ⟨_, rfl, hm, hsent, hrecv, hq, Or.inl ⟨rfl, hasg, hwk, htest, hcomp⟩⟩
    | waiting =>
      rw [hpcv] at hpc
      obtain ⟨hq, hcases⟩ := hpc
      simp only [worker_step, hpcv] at hw
      rcases hcases with ⟨-, hasg, -⟩ | ⟨hreq, hc1, hasg, hwk, htest, hcomp⟩ |
        ⟨hreq, hasg, hwk, hcur, htest, hcomp⟩
      · rw [hasg] at hw; cases hw
      · rw [hasg] at hw
        simp only [if_true, Option.some.injEq] at hw
        subst hw
        refine ⟨_, rfl, hm, hsent, hrecv, ?_⟩
        exact ⟨hq, hwk, hreq, rfl, hc1, rfl, Nat.zero_le _, fun _ => rfl,
          by simpa using htest, hcomp⟩
      · rw [hasg] at hw
        simp only [Bool.false_eq_true, if_false, Option.some.injEq] at hw
        subst hw
        exact ⟨_, rfl, hm, hsent, hrecv, hq, hwk, hreq, rfl, hcur, htest, hcomp⟩
    | scanning id r fh =>
      rw [hpcv] at hpc
      obtain ⟨hq, hwk, hreq, hasg, hc1, hid, hr, hfh, htest, hcomp⟩ := hpc
      obtain ⟨hq1, hq2, hq3, hq4⟩ := hq
      simp only [worker_step, hpcv] at hw
      by_cases hlt : r < REMSPACE
      · rw [if_pos hlt] at hw
        have htest1 : w.tested ++ [scan_idx id REMSPACE r] =
            blockPrefix cfg REMSPACE (cursor cfg s.master - 1) ++
              (List.range (r + 1)).map (fun x => scan_idx id REMSPACE x) := by
          rw [htest, List.range_succ, List.map_append, List.append_assoc]
          rfl
        by_cases hhit : is_target (scan_idx id REMSPACE r) targets cfg.n_live = true
        · have hsent1 : w.sent ++ [scan_idx id REMSPACE r] =
              (w.tested ++ [scan_idx id REMSPACE r]).filter
                (fun idx => is_target idx targets cfg.n_live) := by
            rw [List.filter_append, ← hsent]
            simp [hhit]
          have hrecv1 : s.received ++ (w.found_q ++ [scan_idx id REMSPACE r]) =
              w.sent ++ [scan_idx id REMSPACE r] := by
            rw [← List.append_assoc, hrecv]
          by_cases hsof : cfg.stop_on_first = true
          · simp only [hhit, hsof, and_self, if_true, Bool.or_true, after_scan,
              Option.some.injEq] at hw
            subst hw
            refine ⟨_, rfl, hm, hsent1, hrecv1, ?_⟩
            have hs0 : w.sent = [] := hq4 hsof
            have hr0 : s.received = [] := by
              have := hrecv
              rw [hs0] at this
              exact (List.append_eq_nil.mp this).1
            refine ⟨hsof, hwk, hreq, hasg, hc1, r, hlt, ?_, ?_, Or.inl ⟨hq1, hq2, hq3, hr0⟩⟩
            · rw [← hid]; exact htest1
            · rw [← hid]; simp [hs0]
          · have hsof' : cfg.stop_on_first = false := by simpa using hsof
            simp only [hhit, hsof', Bool.false_eq_true, and_false, if_false, if_true,
              Bool.or_true] at hw
            cases b with
            | true => simp [hq2] at hw
            | false =>
              simp only [Bool.false_eq_true, if_false, Option.some.injEq] at hw
              subst hw
              refine ⟨_, rfl, hm, hsent1, hrecv1, ?_⟩
              exact ⟨⟨hq1, hq2, hq3, fun h => absurd h hsof⟩, hwk, hreq, hasg, hc1, hid,
                hlt, fun h => absurd h hsof, htest1, hcomp⟩
        · have hsent1 : w.sent = (w.tested ++ [scan_idx id REMSPACE r]).filter
              (fun idx => is_target idx targets cfg.n_live) := by
            rw [List.filter_append, ← hsent]
            simp [hhit]
          have hhit' : is_target (scan_idx id REMSPACE r) targets cfg.n_live = false := by
            simpa using hhit
          simp only [hhit', Bool.false_eq_true, false_and, if_false, Bool.or_false] at hw
          cases b with
          | true => simp [hq2] at hw
          | false =>
            simp only [Bool.false_eq_true, if_false, Option.some.injEq] at hw
            subst hw
            refine ⟨_, rfl, hm, hsent1, hrecv, ?_⟩
            exact ⟨⟨hq1, hq2, hq3, hq4⟩, hwk, hreq, hasg, hc1, hid, hlt, hfh, htest1, hcomp⟩
      · rw [if_neg hlt] at hw
        simp only [Option.some.injEq] at hw
        have hrE : r = REMSPACE := by omega
        have hcle : cursor cfg s.master ≤ SUBSPACE := hm.1
        have htop : after_scan cfg fh = WorkerPc.top := by
          unfold after_scan
          by_cases hsof : cfg.stop_on_first = true
          · rw [hfh hsof]; simp
          · simp [hsof]
        rw [htop] at hw
        subst hw
        refine ⟨_, rfl, hm, hsent, hrecv, ?_⟩
        refine ⟨⟨hq1, hq2, hq3, hq4⟩, hwk, hreq, hasg, ?_, ?_⟩
        · show w.tested = _
          rw [htest, hrE, hid]
          exact blockPrefix_pred cfg REMSPACE _ hc1 hcle
        · show w.completed ++ [id] = _
          rw [hcomp, hid]
          exact take_pred_getD cfg _ hc1 hcle
    | exited why =>
      simp only [worker_step, hpcv] at hw
      cases hw

/-- A request serviced by the master keeps `OneWorkerInv`. -/
theorem inv_request (cfg : Config) (REMSPACE : Nat) (targets : List Nat) (s s' : Farm)
    (i : Nat) (hinv : OneWorkerInv cfg REMSPACE targets s)
    (hstep : farm_step cfg REMSPACE targets s (Action.masterRequest i) = some s') :
    OneWorkerInv cfg REMSPACE targets s' := by
  obtain ⟨w, hp, hm, hsent, hrecv, hpc⟩ := hinv
  rw [farm_step_request_one cfg REMSPACE targets s w hp] at hstep
  by_cases hc : s.master.workers > 0 ∧ i = 0 ∧ w.req = true
  swap
  · rw [if_neg hc] at hstep; cases hstep
  rw [if_pos hc] at hstep
  obtain ⟨hwpos, -, hreq⟩ := hc
  simp only [Option.some.injEq] at hstep
  subst hstep
  cases hpcv : w.pc with
  | top =>
    rw [hpcv] at hpc
    have := hpc.2.2.1
    rw [hreq] at this; cases this
  | scanning id r fh =>
    rw [hpcv] at hpc
    have := hpc.2.2.1
    rw [hreq] at this; cases this
  | exited why =>
    rw [hpcv] at hpc
    cases why with
    | stopSeen => exact absurd hpc (by simp [PcInv])
    | noMoreWork =>
      have := hpc.2.2.1
      rw [hreq] at this; cases this
    | foundHere =>
      have := hpc.2.2.1
      rw [hreq] at this; cases this
  | waiting =>
    rw [hpcv] at hpc
    obtain ⟨⟨hq1, hq2, hq3, hq4⟩, hcases⟩ := hpc
    rcases hcases with ⟨-, hasg, hwk, htest, hcomp⟩ | ⟨hreq', -⟩ | ⟨hreq', -⟩
    · by_cases hlt : cursor cfg s.master < SUBSPACE
      · obtain ⟨hmsg, hcur, hinv2, hstop2, hwk2⟩ :=
          on_request_valid cfg s.master hm hq1 hlt
        refine ⟨_, rfl, hinv2, hsent, hrecv, ?_⟩
        show PcInv cfg REMSPACE _ _ WorkerPc.waiting
        refine ⟨⟨hstop2, hq2, hq3, hq4⟩, Or.inr (Or.inl ⟨rfl, ?_, ?_, ?_, ?_, ?_⟩)⟩
        · show 1 ≤ cursor cfg (on_request cfg s.master).2
          rw [hcur]; omega
        · show some (on_request cfg s.master).1 = _
          rw [hmsg, hcur, Nat.add_sub_cancel]
        · show (on_request cfg s.master).2.workers = 1
          rw [hwk2]; exact hwk
        · show w.tested = blockPrefix cfg REMSPACE (cursor cfg (on_request cfg s.master).2 - 1)
          rw [hcur, Nat.add_sub_cancel]; exact htest
        · show w.completed = (schedule cfg).take (cursor cfg (on_request cfg s.master).2 - 1)
          rw [hcur, Nat.add_sub_cancel]; exact hcomp
      · have heq : cursor cfg s.master = SUBSPACE := le_antisymm hm.1 (not_lt.mp hlt)
        have hon := on_request_invalid cfg s.master (Or.inr heq)
        refine ⟨_, rfl, ?_, hsent, hrecv, ?_⟩
        · show MasterInv cfg (on_request cfg s.master).2
          rw [hon]; exact hm
        · show PcInv cfg REMSPACE _ _ WorkerPc.waiting
          refine ⟨⟨?_, hq2, hq3, hq4⟩, Or.inr (Or.inr ⟨rfl, ?_, ?_, ?_, ?_, ?_⟩)⟩
          · show (on_request cfg s.master).2.stop_broadcasted = false
            rw [hon]; exact hq1
          · show some (on_request cfg s.master).1 = _
            rw [hon]
          · show (on_request cfg s.master).2.workers = 0
            rw [hon]
            show s.master.workers - 1 = 0
            omega
          · show cursor cfg (on_request cfg s.master).2 = SUBSPACE
            rw [hon]; exact heq
          · show w.tested = _
            rw [htest, heq]
          · show w.completed = _
            rw [hcomp, heq, ← schedule_length cfg, List.take_length]
    · rw [hreq] at hreq'; cases hreq'
    · rw [hreq] at hreq'; cases hreq'

/-- A found-notification received by the master keeps `OneWorkerInv`. -/
theorem inv_found (cfg : Config) (REMSPACE : Nat) (targets : List Nat) (s s' : Farm)
    (i : Nat) (hinv : OneWorkerInv cfg REMSPACE targets s)
    (hstep : farm_step cfg REMSPACE targets s (Action.masterFound i) = some s') :
    OneWorkerInv cfg REMSPACE targets s' := by
  obtain ⟨w, hp, hm, hsent, hrecv, hpc⟩ := hinv
  rw [farm_step_found_one cfg REMSPACE targets s w hp] at hstep
  by_cases hc : s.master.workers > 0 ∧ i = 0
  swap
  · rw [if_neg hc] at hstep; cases hstep
  rw [if_pos hc] at hstep
  obtain ⟨hwpos, -⟩ := hc
  cases hq : w.found_q with
  | nil => rw [hq] at hstep; cases hstep
  | cons idx rest =>
    rw [hq] at hstep hrecv
    simp only [Option.some.injEq] at hstep
    have hrecv1 : (s.received ++ [idx]) ++ rest = w.sent := by
      rw [List.append_assoc]; exact hrecv
    by_cases hsof : cfg.stop_on_first = true
    · -- only a worker that has left after its hit has a notification in flight
      have hquiet : Quiet cfg s w → False := by
        intro hqt
        have h0 := hqt.2.2.2 hsof
        rw [h0] at hrecv
        have := (List.append_eq_nil.mp hrecv).2
        cases this
      cases hpcv : w.pc with
      | top => rw [hpcv] at hpc; exact absurd hpc.1 hquiet
      | waiting => rw [hpcv] at hpc; exact absurd hpc.1 hquiet
      | scanning id r fh => rw [hpcv] at hpc; exact absurd hpc.1 hquiet
      | exited why =>
        rw [hpcv] at hpc
        cases why with
        | stopSeen => exact absurd hpc (by simp [PcInv])
        | noMoreWork => exact absurd hpc.1 hquiet
        | foundHere =>
          obtain ⟨-, hwk, hreq, hasg, hc1, r, hr, htest, hsnt, hcases⟩ := hpc
          rcases hcases with ⟨hst, hstops, hbc, hrc⟩ | ⟨hst, hstops, hbc, hrc⟩
          · rw [hsnt, hrc, List.nil_append] at hrecv
            have hidx := (List.cons.inj hrecv).1
            have hrest := (List.cons.inj hrecv).2
            have hon : on_found cfg s.master =
                (true, { s.master with stop_broadcasted := true }) := by
              simp [on_found, hsof, hst]
            rw [hon] at hstep
            simp only [if_true] at hstep
            subst hstep
            refine ⟨_, rfl, ⟨hm.1, hm.2⟩, hsent, ?_, ?_⟩
            · show (s.received ++ [idx]) ++ rest = w.sent
              exact hrecv1
            · show PcInv cfg REMSPACE _ _ w.pc
              rw [hpcv]
              refine ⟨hsof, hwk, hreq, hasg, hc1, r, hr, htest, hsnt, Or.inr ⟨rfl, ?_, ?_, ?_⟩⟩
              · show w.stops + 1 = 1
                omega
              · show s.broadcasts + 1 = 1
                omega
              · show s.received ++ [idx] = _
                rw [hrc, hidx]; rfl
          · rw [hsnt, hrc] at hrecv
            simp at hrecv
    · have hsof' : cfg.stop_on_first = false := by simpa using hsof
      have hon : on_found cfg s.master = (false, s.master) := by
        simp [on_found, hsof']
      rw [hon] at hstep
      simp only [Bool.false_eq_true, if_false] at hstep
      subst hstep
      refine ⟨_, rfl, hm, hsent, hrecv1, ?_⟩
      cases hpcv : w.pc with
      | top => rw [hpcv] at hpc; exact hpc
      | waiting => rw [hpcv] at hpc; exact hpc
      | scanning id r fh => rw [hpcv] at hpc; exact hpc
      | exited why =>
        rw [hpcv] at hpc
        cases why with
        | stopSeen => exact absurd hpc (by simp [PcInv])
        | noMoreWork => exact hpc
        | foundHere => exact absurd hpc.1 hsof

/-- `OneWorkerInv` holds when the program starts with one worker. -/
theorem inv_init (cfg : Config) (REMSPACE : Nat) (targets : List Nat) :
    OneWorkerInv cfg REMSPACE targets (farmInit cfg 2) := by
  obtain ⟨hinv, hcur, hstop⟩ := masterInit_inv cfg 2
  refine ⟨workerInit, rfl, hinv, rfl, rfl, ?_⟩
  show PcInv cfg REMSPACE _ _ WorkerPc.top
  refine ⟨⟨hstop, rfl, rfl, fun _ => rfl⟩, rfl, rfl, rfl, ?_, ?_⟩
  · show ([] : List Nat) = blockPrefix cfg REMSPACE (cursor cfg (masterInit cfg 2))
    rw [hcur]; simp [blockPrefix]
  · show ([] : List Nat) = (schedule cfg).take (cursor cfg (masterInit cfg 2))
    rw [hcur]; simp

theorem inv_step (cfg : Config) (REMSPACE : Nat) (targets : List Nat) (s s' : Farm)
    (a : Action) (hinv : OneWorkerInv cfg REMSPACE targets s)
    (hstep : farm_step cfg REMSPACE targets s a = some s') :
    OneWorkerInv cfg REMSPACE targets s' := by
  cases a with
  | masterFound i => exact inv_found cfg REMSPACE targets s s' i hinv hstep
  | masterRequest i => exact inv_request cfg REMSPACE targets s s' i hinv hstep
  | worker i b => exact inv_worker cfg REMSPACE targets s s' i b hinv hstep

theorem inv_exec (cfg : Config) (REMSPACE : Nat) (targets : List Nat) :
    ∀ acts s s', OneWorkerInv cfg REMSPACE targets s →
      farm_exec cfg REMSPACE targets s acts = some s' →
      OneWorkerInv cfg REMSPACE targets s' := by
  intro acts
  induction acts with
  | nil =>
    intro s s' hinv h
    simp only [farm_exec, Option.some.injEq] at h
    subst h; exact hinv
  | cons a rest ih =>
    intro s s' hinv h
    rw [farm_exec] at h
    cases hs : farm_step cfg REMSPACE targets s a with
    | none => rw [hs] at h; cases h
    | some s1 =>
      rw [hs] at h
      exact ih s1 s' (inv_step cfg REMSPACE targets s s1 a hinv hs) h

/-- Every state of a run with one worker satisfies `OneWorkerInv`. -/
theorem inv_reachable (cfg : Config) (REMSPACE : Nat) (targets : List Nat) (s : Farm)
    (h : Reachable cfg REMSPACE targets 2 s) : OneWorkerInv cfg REMSPACE targets s := by
  obtain ⟨acts, hacts⟩ := h
  exact inv_exec cfg REMSPACE targets acts _ s (inv_init cfg REMSPACE targets) hacts

/-! ### The run goes on until the worker leaves -/

theorem exec_append (cfg : Config) (REMSPACE : Nat) (targets : List Nat) :
    ∀ (a b : List Action) (s s1 s2 : Farm),
      farm_exec cfg REMSPACE targets s a = some s1 →
      farm_exec cfg REMSPACE targets s1 b = some s2 →
      farm_exec cfg REMSPACE targets s (a ++ b) = some s2 := by
  intro a
  induction a with
  | nil =>
    intro b s s1 s2 h1 h2
    simp only [farm_exec, Option.some.injEq] at h1
    subst h1
    simpa using h2
  | cons x rest ih =>
    intro b s s1 s2 h1 h2
    rw [farm_exec] at h1
    rw [List.cons_append, farm_exec]
    cases hs : farm_step cfg REMSPACE targets s x with
    | none => rw [hs] at h1; cases h1
    | some s0 =>
      rw [hs] at h1
      exact ih b s0 s1 s2 h1 h2

theorem exec_single (cfg : Config) (REMSPACE : Nat) (targets : List Nat) (s s1 : Farm)
    (a : Action) (h : farm_step cfg REMSPACE targets s a = some s1) :
    farm_exec cfg REMSPACE targets s [a] = some s1 := by
  simp [farm_exec, h]

theorem reachable_exec (cfg : Config) (REMSPACE : Nat) (targets : List Nat) (world : Int)
    (s s' : Farm) (acts : List Action) (h : Reachable cfg REMSPACE targets world s)
    (he : farm_exec cfg REMSPACE targets s acts = some s') :
    Reachable cfg REMSPACE targets world s' := by
  obtain ⟨a0, h0⟩ := h
  exact ⟨a0 ++ acts, exec_append cfg REMSPACE targets a0 acts _ s s' h0 he⟩

theorem after_scan_cases (cfg : Config) (b : Bool) :
    after_scan cfg b = WorkerPc.top ∨
      after_scan cfg b = WorkerPc.exited ExitReason.foundHere := by
  unfold after_scan
  split
  · exact Or.inr rfl
  · exact Or.inl rfl

/-- A worker in its scan loop always has a next step when it sees no stop, and after it
the worker is either one index further in the same loop or out of the loop. -/
theorem worker_step_scan (cfg : Config) (REMSPACE : Nat) (targets : List Nat) (w : Worker)
    (id r : Nat) (fh : Bool) (hpc : w.pc = WorkerPc.scanning id r fh) :
    ∃ w1, worker_step cfg REMSPACE targets w false = some w1 ∧
      ((r < REMSPACE ∧ ∃ fh1, w1.pc = WorkerPc.scanning id (r + 1) fh1) ∨
        w1.pc = WorkerPc.top ∨ w1.pc = WorkerPc.exited ExitReason.foundHere) := by
  simp only [worker_step, hpc]
  by_cases hlt : r < REMSPACE
  · rw [if_pos hlt]
    by_cases hc : is_target (scan_idx id REMSPACE r) targets cfg.n_live = true ∧
        cfg.stop_on_first = true
    · rw [if_pos hc]
      exact ⟨_, rfl, Or.inr (after_scan_cases cfg _)⟩
    · rw [if_neg hc]
      simp only [Bool.false_eq_true, if_false]
      exact ⟨_, rfl, Or.inl ⟨hlt, _, rfl⟩⟩
  · rw [if_neg hlt]
    exact ⟨_, rfl, Or.inr (after_scan_cases cfg _)⟩

/-- From a state in which the only worker is in its scan loop, the run goes on, with no
move of the master, to a state in which the worker is back at the head of its loop or has
left it. -/
theorem scan_progress (cfg : Config) (REMSPACE : Nat) (targets : List Nat) :
    ∀ k (s : Farm) (w : Worker) (id r : Nat) (fh : Bool),
      s.procs = [w] → w.pc = WorkerPc.scanning id r fh → REMSPACE ≤ r + k →
      ∃ acts s' w', farm_exec cfg REMSPACE targets s acts = some s' ∧
        s'.master = s.master ∧ s'.procs = [w'] ∧
        (w'.pc = WorkerPc.top ∨ w'.pc = WorkerPc.exited ExitReason.foundHere) := by
  intro k
  induction k with
  | zero =>
    intro s w id r fh hp hpc hk
    obtain ⟨w1, hw1, hcase⟩ := worker_step_scan cfg REMSPACE targets w id r fh hpc
    have hstep : farm_step cfg REMSPACE targets s (Action.worker 0 false) =
        some { s with procs := [w1] } := by
      rw [farm_step_worker_one cfg REMSPACE targets s w hp, if_pos rfl, hw1]
      rfl
    refine ⟨[Action.worker 0 false], _, w1,
      exec_single cfg REMSPACE targets _ _ _ hstep, rfl, rfl, ?_⟩
    rcases hcase with ⟨hlt, -⟩ | h | h
    · omega
    · exact Or.inl h
    · exact Or.inr h
  | succ k ih =>
    intro s w id r fh hp hpc hk
    obtain ⟨w1, hw1, hcase⟩ := worker_step_scan cfg REMSPACE targets w id r fh hpc
    have hstep : farm_step cfg REMSPACE targets s (Action.worker 0 false) =
        some { s with procs := [w1] } := by
      rw [farm_step_worker_one cfg REMSPACE targets s w hp, if_pos rfl, hw1]
      rfl
    rcases hcase with ⟨hlt, fh1, hpc1⟩ | h | h
    · obtain ⟨acts, s', w', hex, hmst, hp', hset⟩ :=
        ih { s with procs := [w1] } w1 id (r + 1) fh1 rfl hpc1 (by omega)
      exact ⟨Action.worker 0 false :: acts, s', w',
        exec_append cfg REMSPACE targets [_] acts s _ s'
          (exec_single cfg REMSPACE targets _ _ _ hstep) hex,
        hmst, hp', hset⟩
    · exact ⟨[Action.worker 0 false], _, w1,
        exec_single cfg REMSPACE targets _ _ _ hstep, rfl, rfl, Or.inl h⟩
    · exact ⟨[Action.worker 0 false], _, w1,
        exec_single cfg REMSPACE targets _ _ _ hstep, rfl, rfl, Or.inr h⟩

/-- One round of a run with one worker: from a state in which the worker is at the head
of its loop, the run goes on (request, reply, scan) to a state in which the worker has
left, or is back at the head of its loop with one more id issued. -/
theorem round_progress (cfg : Config) (REMSPACE : Nat) (targets : List Nat) (s : Farm)
    (w : Worker) (hreach : Reachable cfg REMSPACE targets 2 s) (hp : s.procs = [w])
    (hpc : w.pc = WorkerPc.top) :
    ∃ acts s' w', farm_exec cfg REMSPACE targets s acts = some s' ∧ s'.procs = [w'] ∧
      ((∃ why, w'.pc = WorkerPc.exited why ∧
          (cursor cfg s.master < SUBSPACE → why = ExitReason.foundHere)) ∨
        (w'.pc = WorkerPc.top ∧ cursor cfg s.master < SUBSPACE ∧
          cursor cfg s'.master = cursor cfg s.master + 1)) := by
  obtain ⟨w0, hp0, hm, -, -, hpcinv⟩ := inv_reachable cfg REMSPACE targets s hreach
  rw [hp] at hp0
  obtain rfl : w = w0 := (List.cons.inj hp0).1
  rw [hpc] at hpcinv
  obtain ⟨⟨hstop, -, -, -⟩, hwk, -, -, -, -⟩ := hpcinv
  -- the worker sends its request
  have hstep1 : farm_step cfg REMSPACE targets s (Action.worker 0 false) =
      some { s with procs := [{ w with req := true, pc := WorkerPc.waiting }] } := by
    rw [farm_step_worker_one cfg REMSPACE targets s w hp, if_pos rfl]
    simp [worker_step, hpc]
  -- the master answers it
  have hstep2 : farm_step cfg REMSPACE targets
      { s with procs := [{ w with req := true, pc := WorkerPc.waiting }] }
      (Action.masterRequest 0) =
      some { s with master := (on_request cfg s.master).2
                    procs := [{ w with req := false, pc := WorkerPc.waiting,
                                       assign := some (on_request cfg s.master).1 }] } := by
    rw [farm_step_request_one cfg REMSPACE targets _ _ rfl, if_pos ⟨by
      show s.master.workers > 0
      omega, rfl, rfl⟩]
  by_cases hlt : cursor cfg s.master < SUBSPACE
  · obtain ⟨hmsg, hcur, -, -, -⟩ := on_request_valid cfg s.master hm hstop hlt
    -- the worker takes the assignment and starts its scan
    have hstep3 : farm_step cfg REMSPACE targets
        { s with master := (on_request cfg s.master).2
                 procs := [{ w with req := false, pc := WorkerPc.waiting,
                                    assign := some (on_request cfg s.master).1 }] }
        (Action.worker 0 false) =
        some { s with master := (on_request cfg s.master).2
                      procs := [{ w with req := false, assign := none,
                                         pc := WorkerPc.scanning
                                           ((schedule cfg).getD (cursor cfg s.master) 0) 0
                                           false }] } := by
      rw [farm_step_worker_one cfg REMSPACE targets _ _ rfl, if_pos rfl]
      simp [worker_step, hmsg]
    obtain ⟨acts, s4, w4, hex4, hmst4, hp4, hset⟩ :=
      scan_progress cfg REMSPACE targets REMSPACE
        { s with master := (on_request cfg s.master).2
                 procs := [{ w with req := false, assign := none,
                                    pc := WorkerPc.scanning
                                      ((schedule cfg).getD (cursor cfg s.master) 0) 0
                                      false }] }
        _ _ 0 false rfl rfl (by omega)
    have hex : farm_exec cfg REMSPACE targets s
        ([Action.worker 0 false] ++ ([Action.masterRequest 0] ++
          ([Action.worker 0 false] ++ acts))) = some s4 :=
      exec_append cfg REMSPACE targets _ _ s _ s4
        (exec_single cfg REMSPACE targets _ _ _ hstep1)
        (exec_append cfg REMSPACE targets _ _ _ _ s4
          (exec_single cfg REMSPACE targets _ _ _ hstep2)
          (exec_append cfg REMSPACE targets _ _ _ _ s4
            (exec_single cfg REMSPACE targets _ _ _ hstep3) hex4))
    refine ⟨_, s4, w4, hex, hp4, ?_⟩
    rcases hset with h | h
    · refine Or.inr ⟨h, hlt, ?_⟩
      rw [hmst4]
      exact hcur
    · exact Or.inl ⟨_, h, fun _ => rfl⟩
  · have heq : cursor cfg s.master = SUBSPACE := le_antisymm hm.1 (not_lt.mp hlt)
    have hon := on_request_invalid cfg s.master (Or.inr heq)
    have hmsg : (on_request cfg s.master).1 = { subprefix_id := 0, valid := false } := by
      rw [hon]
    have hstep3 : farm_step cfg REMSPACE targets
        { s with master := (on_request cfg s.master).2
                 procs := [{ w with req := false, pc := WorkerPc.waiting,
                                    assign := some (on_request cfg s.master).1 }] }
        (Action.worker 0 false) =
        some { s with master := (on_request cfg s.master).2
                      procs := [{ w with req := false, assign := none,
                                         pc := WorkerPc.exited ExitReason.noMoreWork }] } := by
      rw [farm_step_worker_one cfg REMSPACE targets _ _ rfl, if_pos rfl]
      simp [worker_step, hmsg]
    have hex : farm_exec cfg REMSPACE targets s
        ([Action.worker 0 false] ++ ([Action.masterRequest 0] ++
          [Action.worker 0 false])) = some _ :=
      exec_append cfg REMSPACE targets _ _ s _ _
        (exec_single cfg REMSPACE targets _ _ _ hstep1)
        (exec_append cfg REMSPACE targets _ _ _ _ _
          (exec_single cfg REMSPACE targets _ _ _ hstep2)
          (exec_single cfg REMSPACE targets _ _ _ hstep3))
    exact ⟨_, _, _, hex, rfl, Or.inl ⟨_, rfl, fun h => absurd h hlt⟩⟩

/-- From a state of a run with one worker in which the worker is at the head of its loop,
the run goes on to a state in which the worker has left its loop. -/
theorem run_to_exit (cfg : Config) (REMSPACE : Nat) (targets : List Nat) :
    ∀ n (s : Farm) (w : Worker), Reachable cfg REMSPACE targets 2 s → s.procs = [w] →
      w.pc = WorkerPc.top → SUBSPACE ≤ cursor cfg s.master + n →
      ∃ acts s' w', farm_exec cfg REMSPACE targets s acts = some s' ∧ s'.procs = [w'] ∧
        ∃ why, w'.pc = WorkerPc.exited why := by
  intro n
  induction n with
  | zero =>
    intro s w hreach hp hpc hn
    obtain ⟨acts, s', w', hex, hp', hcase⟩ :=
      round_progress cfg REMSPACE targets s w hreach hp hpc
    rcases hcase with ⟨why, h, -⟩ | ⟨-, hlt, -⟩
    · exact ⟨acts, s', w', hex, hp', why, h⟩
    · omega
  | succ n ih =>
    intro s w hreach hp hpc hn
    obtain ⟨acts, s', w', hex, hp', hcase⟩ :=
      round_progress cfg REMSPACE targets s w hreach hp hpc
    rcases hcase with ⟨why, h, -⟩ | ⟨htop, hlt, hcur⟩
    · exact ⟨acts, s', w', hex, hp', why, h⟩
    · obtain ⟨acts2, s2, w2, hex2, hp2, hexit⟩ :=
        ih s' w' (reachable_exec cfg REMSPACE targets 2 s s' acts hreach hex) hp' htop
          (by omega)
      exact ⟨acts ++ acts2, s2, w2,
        exec_append cfg REMSPACE targets acts acts2 s s' s2 hex hex2, hp2, hexit⟩

/-- A run with one worker reaches a state in which the worker has left its loop. -/
theorem exit_reachable (cfg : Config) (REMSPACE : Nat) (targets : List Nat) :
    ∃ s w, Reachable cfg REMSPACE targets 2 s ∧ s.procs = [w] ∧
      ∃ why, w.pc = WorkerPc.exited why := by
  obtain ⟨acts, s', w', hex, hp', hexit⟩ :=
    run_to_exit cfg REMSPACE targets SUBSPACE (farmInit cfg 2) workerInit
      ⟨[], rfl⟩ rfl rfl (by omega)
  exact ⟨s', w', ⟨acts, hex⟩, hp', hexit⟩

end AlgoritmoMpi
namespace AlgoritmoMpi

/-! ### The exhaustive run with one worker -/

theorem full_scan_perm (cfg : Config) (E : Nat) (hrep : SUBSPACE * E ≤ UINT64_MAX) :
    ((schedule cfg).flatMap (fun id => scanned id E)).Perm (List.range (SUBSPACE * E)) := by
  have hcontig : (List.range SUBSPACE).flatMap (fun id => scanned id E) =
      List.range (SUBSPACE * E) := by
    rw [← flatMap_blocks]
    apply List.flatMap_congr
    intro id hid
    exact scanned_exact _ id hrep (List.mem_range.mp hid)
  rw [← hcontig]
  exact List.Perm.flatMap_right _ (schedule_perm cfg)

theorem blockPrefix_full (cfg : Config) (E : Nat) :
    blockPrefix cfg E SUBSPACE = (schedule cfg).flatMap (fun id => scanned id E) := by
  unfold blockPrefix
  rw [← schedule_length cfg, List.take_length]

theorem is_target_cfg (cfg : Config) (T : List Nat) (hn : cfg.n_live = (T.length : Int))
    (idx : Nat) : is_target idx T cfg.n_live = true ↔ idx ∈ T := by
  rw [hn]
  exact is_target_iff_mem idx T

/-- The notifications sent while the whole keyspace is scanned: each target once. -/
theorem full_scan_hits (cfg : Config) (E : Nat) (T : List Nat)
    (hrep : SUBSPACE * E ≤ UINT64_MAX) (hn : cfg.n_live = (T.length : Int))
    (hlt : ∀ t, t ∈ T → t < SUBSPACE * E) :
    (((schedule cfg).flatMap (fun id => scanned id E)).filter
        (fun idx => is_target idx T cfg.n_live)).Nodup ∧
      ∀ x, x ∈ ((schedule cfg).flatMap (fun id => scanned id E)).filter
          (fun idx => is_target idx T cfg.n_live) ↔ x ∈ T := by
  have hperm := full_scan_perm cfg E hrep
  refine ⟨List.Nodup.filter _ (hperm.nodup_iff.mpr (List.nodup_range _)), ?_⟩
  intro x
  rw [List.mem_filter, hperm.mem_iff, List.mem_range, is_target_cfg cfg T hn]
  exact ⟨fun h => h.2, fun h => ⟨hlt x h, h⟩⟩

/-- While its loop runs and `stop_on_first` is disabled, the master can receive all the
notifications in flight; nothing else changes. -/
theorem drain_found (cfg : Config) (REMSPACE : Nat) (targets : List Nat)
    (hsof : cfg.stop_on_first = false) :
    ∀ n (s : Farm) (w : Worker), s.procs = [w] → s.master.workers > 0 →
      w.found_q.length = n →
      ∃ acts s' w', farm_exec cfg REMSPACE targets s acts = some s' ∧
        s'.master = s.master ∧ s'.procs = [w'] ∧ w'.pc = w.pc ∧ w'.found_q = [] := by
  intro n
  induction n with
  | zero =>
    intro s w hp _ hlen
    exact ⟨[], s, w, rfl, rfl, hp, rfl, List.length_eq_zero.mp hlen⟩
  | succ n ih =>
    intro s w hp hwk hlen
    cases hq : w.found_q with
    | nil => rw [hq] at hlen; cases hlen
    | cons idx rest =>
      have hon : on_found cfg s.master = (false, s.master) := by
        simp [on_found, hsof]
      have hstep : farm_step cfg REMSPACE targets s (Action.masterFound 0) =
          some { master := s.master, procs := [{ w with found_q := rest }],
                 received := s.received ++ [idx], broadcasts := s.broadcasts } := by
        rw [farm_step_found_one cfg REMSPACE targets s w hp, if_pos ⟨hwk, rfl⟩, hq, hon]
        simp
      have hlen' : rest.length = n := by
        rw [hq] at hlen
        simpa using hlen
      obtain ⟨acts, s', w', hex, hmst, hp', hpc', hq'⟩ :=
        ih { master := s.master, procs := [{ w with found_q := rest }],
             received := s.received ++ [idx], broadcasts := s.broadcasts }
          { w with found_q := rest } rfl hwk hlen'
      exact ⟨Action.masterFound 0 :: acts, s', w',
        exec_append cfg REMSPACE targets [_] acts s _ s'
          (exec_single cfg REMSPACE targets _ _ _ hstep) hex,
        hmst, hp', hpc', hq'⟩

/-- With `stop_on_first` disabled, a run with one worker goes on, round after round, to
the state in which the worker is at the head of its loop and all ids are issued. -/
theorem run_to_last_top (cfg : Config) (REMSPACE : Nat) (targets : List Nat)
    (hsof : cfg.stop_on_first = false) :
    ∀ n (s : Farm) (w : Worker), Reachable cfg REMSPACE targets 2 s → s.procs = [w] →
      w.pc = WorkerPc.top → cursor cfg s.master + n = SUBSPACE →
      ∃ acts s' w', farm_exec cfg REMSPACE targets s acts = some s' ∧ s'.procs = [w'] ∧
        w'.pc = WorkerPc.top ∧ cursor cfg s'.master = SUBSPACE := by
  intro n
  induction n with
  | zero =>
    intro s w _ hp hpc hn
    exact ⟨[], s, w, rfl, hp, hpc, by omega⟩
  | succ n ih =>
    intro s w hreach hp hpc hn
    obtain ⟨acts, s', w', hex, hp', hcase⟩ :=
      round_progress cfg REMSPACE targets s w hreach hp hpc
    have hreach' := reachable_exec cfg REMSPACE targets 2 s s' acts hreach hex
    rcases hcase with ⟨why, hwhy, hfound⟩ | ⟨htop, hlt, hcur⟩
    · -- the worker cannot have left on a hit
      exfalso
      have hw := hfound (by omega)
      subst hw
      obtain ⟨w0, hp0, -, -, -, hpcinv⟩ := inv_reachable cfg REMSPACE targets s' hreach'
      rw [hp'] at hp0
      obtain rfl : w' = w0 := (List.cons.inj hp0).1
      rw [hwhy] at hpcinv
      have := hpcinv.1
      rw [hsof] at this
      cases this
    · obtain ⟨acts2, s2, w2, hex2, hp2, htop2, hcur2⟩ := ih s' w' hreach' hp' htop (by omega)
      exact ⟨acts ++ acts2, s2, w2,
        exec_append cfg REMSPACE targets acts acts2 s s' s2 hex hex2, hp2, htop2, hcur2⟩

/-- With `stop_on_first` disabled, a run with one worker reaches a state in which the
worker has left on an invalid assignment and no notification is in flight any more. -/
theorem drained_exit_reachable (cfg : Config) (REMSPACE : Nat) (targets : List Nat)
    (hsof : cfg.stop_on_first = false) :
    ∃ s w, Reachable cfg REMSPACE targets 2 s ∧ s.procs = [w] ∧
      w.pc = WorkerPc.exited ExitReason.noMoreWork ∧ w.found_q = [] := by
  -- all rounds but the last
  obtain ⟨acts1, s1, w1, hex1, hp1, htop1, hcur1⟩ :=
    run_to_last_top cfg REMSPACE targets hsof SUBSPACE (farmInit cfg 2) workerInit
      ⟨[], rfl⟩ rfl rfl (by
        show cursor cfg (masterInit cfg 2) + SUBSPACE = SUBSPACE
        rw [(masterInit_inv cfg 2).2.1]; omega)
  have hreach1 : Reachable cfg REMSPACE targets 2 s1 := ⟨acts1, hex1⟩
  obtain ⟨w0, hp0, -, -, -, hpcinv⟩ := inv_reachable cfg REMSPACE targets s1 hreach1
  rw [hp1] at hp0
  obtain rfl : w1 = w0 := (List.cons.inj hp0).1
  rw [htop1] at hpcinv
  have hwk1 : s1.master.workers = 1 := hpcinv.2.1
  -- the master receives what is in flight
  obtain ⟨acts2, s2, w2, hex2, hmst2, hp2, hpc2, hq2⟩ :=
    drain_found cfg REMSPACE targets hsof _ s1 w1 hp1 (by omega) rfl
  rw [htop1] at hpc2
  have hreach2 := reachable_exec cfg REMSPACE targets 2 s1 s2 acts2 hreach1 hex2
  have hwk2 : s2.master.workers > 0 := by rw [hmst2]; omega
  have hcur2 : cursor cfg s2.master = SUBSPACE := by rw [hmst2]; exact hcur1
  -- the last request is answered with an invalid assignment
  have hstep1 : farm_step cfg REMSPACE targets s2 (Action.worker 0 false) =
      some { s2 with procs := [{ w2 with req := true, pc := WorkerPc.waiting }] } := by
    rw [farm_step_worker_one cfg REMSPACE targets s2 w2 hp2, if_pos rfl]
    simp [worker_step, hpc2]
  have hstep2 : farm_step cfg REMSPACE targets
      { s2 with procs := [{ w2 with req := true, pc := WorkerPc.waiting }] }
      (Action.masterRequest 0) =
      some { s2 with master := (on_request cfg s2.master).2
                     procs := [{ w2 with req := false, pc := WorkerPc.waiting,
                                         assign := some (on_request cfg s2.master).1 }] } := by
    rw [farm_step_request_one cfg REMSPACE targets _ _ rfl, if_pos ⟨hwk2, rfl, rfl⟩]
  have hmsg : (on_request cfg s2.master).1 = { subprefix_id := 0, valid := false } := by
    rw [on_request_invalid cfg s2.master (Or.inr hcur2)]
  have hstep3 : farm_step cfg REMSPACE targets
      { s2 with master := (on_request cfg s2.master).2
                procs := [{ w2 with req := false, pc := WorkerPc.waiting,
                                    assign := some (on_request cfg s2.master).1 }] }
      (Action.worker 0 false) =
      some { s2 with master := (on_request cfg s2.master).2
                     procs := [{ w2 with req := false, assign := none,
                                         pc := WorkerPc.exited ExitReason.noMoreWork }] } := by
    rw [farm_step_worker_one cfg REMSPACE targets _ _ rfl, if_pos rfl]
    simp [worker_step, hmsg]
  have hex3 : farm_exec cfg REMSPACE targets s2
      ([Action.worker 0 false] ++ ([Action.masterRequest 0] ++
        [Action.worker 0 false])) = some _ :=
    exec_append cfg REMSPACE targets _ _ s2 _ _
      (exec_single cfg REMSPACE targets _ _ _ hstep1)
      (exec_append cfg REMSPACE targets _ _ _ _ _
        (exec_single cfg REMSPACE targets _ _ _ hstep2)
        (exec_single cfg REMSPACE targets _ _ _ hstep3))
  exact ⟨_, _, reachable_exec cfg REMSPACE targets 2 s2 _ _ hreach2 hex3, rfl, rfl, hq2⟩

/-- C12 (exhaustive run with one worker).  For a length `L ≥ 2` with `36 ^ L`
representable, any targets below `36 ^ L`, either scheduling order and any seed, with one
worker and `stop_on_first` disabled: in every state of the run no stop has been broadcast
and the notifications the master has received, followed by those still in flight, are the
ones the worker has sent; whenever the worker has left its loop it has left on an invalid
assignment, the master's loop is over, the worker has scanned in full the 1296 ids of the
schedule, it has tested a rearrangement of all the indices below `36 ^ L`, and the
notifications it has sent contain every target index exactly once and nothing else; and
the run does reach a state in which the worker has left its loop and the master has
received every notification the worker has sent. -/
theorem exhaustive_one_worker (L : Nat) (cfg : Config) (T : List Nat) (hL : 2 ≤ L)
    (hrep : 36 ^ L ≤ UINT64_MAX) (hlen : cfg.len = (L : Int))
    (hsof : cfg.stop_on_first = false) (hn : cfg.n_live = (T.length : Int))
    (hlt : ∀ t, t ∈ T → t < 36 ^ L) :
    powu RADIX (cfg.len - 2) = Except.ok (36 ^ (L - 2)) ∧
    (∀ s, Reachable cfg (36 ^ (L - 2)) T 2 s →
      ∃ w, s.procs = [w] ∧ s.broadcasts = 0 ∧ s.master.stop_broadcasted = false ∧
        s.received ++ w.found_q = w.sent ∧
        (∀ why, w.pc = WorkerPc.exited why →
          why = ExitReason.noMoreWork ∧ s.master.workers = 0 ∧
          w.completed = schedule cfg ∧ w.completed.length = 1296 ∧
          w.completed.Perm (List.range 1296) ∧
          w.tested = (schedule cfg).flatMap (fun id => scanned id (36 ^ (L - 2))) ∧
          w.tested.Perm (List.range (36 ^ L)) ∧
          w.sent.Nodup ∧ ∀ x, x ∈ w.sent ↔ x ∈ T)) ∧
    (∃ s w, Reachable cfg (36 ^ (L - 2)) T 2 s ∧ s.procs = [w] ∧
      w.pc = WorkerPc.exited ExitReason.noMoreWork ∧ w.found_q = [] ∧
      s.received = w.sent) := by
  have hsplit := pow_split L hL
  have hrep' : SUBSPACE * 36 ^ (L - 2) ≤ UINT64_MAX := by rw [← hsplit]; exact hrep
  have hlt' : ∀ t, t ∈ T → t < SUBSPACE * 36 ^ (L - 2) := by
    intro t ht; rw [← hsplit]; exact hlt t ht
  have hle : 36 ^ (L - 2) ≤ 36 ^ L := Nat.pow_le_pow_right (by norm_num) (by omega)
  have hpow : powu RADIX (cfg.len - 2) = Except.ok (36 ^ (L - 2)) := by
    have hcast : cfg.len - 2 = ((L - 2 : Nat) : Int) := by rw [hlen]; omega
    rw [hcast]
    exact (powu_exact 36 (L - 2) (by norm_num)).1 (le_trans hle hrep)
  have hsof' : ¬ cfg.stop_on_first = true := by simp [hsof]
  -- what the invariant says of a state of the run
  have key : ∀ s, Reachable cfg (36 ^ (L - 2)) T 2 s →
      ∃ w, s.procs = [w] ∧ s.broadcasts = 0 ∧ s.master.stop_broadcasted = false ∧
        s.received ++ w.found_q = w.sent ∧
        (∀ why, w.pc = WorkerPc.exited why →
          why = ExitReason.noMoreWork ∧ s.master.workers = 0 ∧
          w.completed = schedule cfg ∧ w.completed.length = 1296 ∧
          w.completed.Perm (List.range 1296) ∧
          w.tested = (schedule cfg).flatMap (fun id => scanned id (36 ^ (L - 2))) ∧
          w.tested.Perm (List.range (36 ^ L)) ∧
          w.sent.Nodup ∧ ∀ x, x ∈ w.sent ↔ x ∈ T) := by
    intro s hs
    obtain ⟨w, hp, hm, hsent, hrecv, hpc⟩ := inv_reachable cfg _ T s hs
    have hquiet : s.broadcasts = 0 ∧ s.master.stop_broadcasted = false := by
      cases hpcv : w.pc with
      | top => rw [hpcv] at hpc; exact ⟨hpc.1.2.2.1, hpc.1.1⟩
      | waiting => rw [hpcv] at hpc; exact ⟨hpc.1.2.2.1, hpc.1.1⟩
      | scanning id r fh => rw [hpcv] at hpc; exact ⟨hpc.1.2.2.1, hpc.1.1⟩
      | exited why =>
        rw [hpcv] at hpc
        cases why with
        | stopSeen => exact absurd hpc (by simp [PcInv])
        | noMoreWork => exact ⟨hpc.1.2.2.1, hpc.1.1⟩
        | foundHere => exact absurd hpc.1 hsof'
    refine ⟨w, hp, hquiet.1, hquiet.2, hrecv, ?_⟩
    intro why hwhy
    rw [hwhy] at hpc
    cases why with
    | stopSeen => exact absurd hpc (by simp [PcInv])
    | foundHere => exact absurd hpc.1 hsof'
    | noMoreWork =>
      obtain ⟨-, hwk, -, -, -, htest, hcomp⟩ := hpc
      rw [blockPrefix_full] at htest
      have hhits := full_scan_hits cfg _ T hrep' hn hlt'
      rw [← htest, ← hsent] at hhits
      refine ⟨rfl, hwk, hcomp, ?_, ?_, htest, ?_, hhits.1, hhits.2⟩
      · rw [hcomp]; exact schedule_length cfg
      · rw [hcomp]; exact schedule_perm cfg
      · rw [htest, hsplit]; exact full_scan_perm cfg _ hrep'
  refine ⟨hpow, key, ?_⟩
  obtain ⟨s, w, hs, hp, hwhy, hq⟩ := drained_exit_reachable cfg (36 ^ (L - 2)) T hsof
  obtain ⟨w', hp', -, -, hrecv, -⟩ := key s hs
  rw [hp] at hp'
  obtain rfl : w = w' := (List.cons.inj hp').1
  rw [hq, List.append_nil] at hrecv
  exact ⟨s, w, hs, hp, hwhy, hq, hrecv⟩

/-- Witness of `exhaustive_one_worker`: scenario 2 of the specification, length 2 and the
targets 5 and 1000, in the shuffled order. -/
theorem exhaustive_one_worker_witness :
    powu RADIX ((scenarioCfg false Strategy.STRAT_SHUFFLE).len - 2) =
      Except.ok (36 ^ (2 - 2)) ∧
    (∀ s, Reachable (scenarioCfg false Strategy.STRAT_SHUFFLE) (36 ^ (2 - 2))
        scenarioTargets 2 s →
      ∃ w, s.procs = [w] ∧ s.broadcasts = 0 ∧ s.master.stop_broadcasted = false ∧
        s.received ++ w.found_q = w.sent ∧
        (∀ why, w.pc = WorkerPc.exited why →
          why = ExitReason.noMoreWork ∧ s.master.workers = 0 ∧
          w.completed = schedule (scenarioCfg false Strategy.STRAT_SHUFFLE) ∧
          w.completed.length = 1296 ∧
          w.completed.Perm (List.range 1296) ∧
          w.tested = (schedule (scenarioCfg false Strategy.STRAT_SHUFFLE)).flatMap
            (fun id => scanned id (36 ^ (2 - 2))) ∧
          w.tested.Perm (List.range (36 ^ 2)) ∧
          w.sent.Nodup ∧ ∀ x, x ∈ w.sent ↔ x ∈ scenarioTargets)) ∧
    (∃ s w, Reachable (scenarioCfg false Strategy.STRAT_SHUFFLE) (36 ^ (2 - 2))
        scenarioTargets 2 s ∧ s.procs = [w] ∧
      w.pc = WorkerPc.exited ExitReason.noMoreWork ∧ w.found_q = [] ∧
      s.received = w.sent) :=
  exhaustive_one_worker 2 (scenarioCfg false Strategy.STRAT_SHUFFLE) scenarioTargets
    (by decide) (by decide) rfl rfl rfl (by decide)

end AlgoritmoMpi
namespace AlgoritmoMpi

/-! ### The stop-on-first run with one worker -/

theorem contig_schedule (cfg : Config) (hc : cfg.strategy = Strategy.STRAT_CONTIG) :
    schedule cfg = List.range SUBSPACE := by
  unfold schedule
  rw [if_neg (by rw [hc]; decide)]

theorem contig_getD (cfg : Config) (hc : cfg.strategy = Strategy.STRAT_CONTIG) (j : Nat)
    (hj : j < SUBSPACE) : (schedule cfg).getD j 0 = j := by
  rw [contig_schedule cfg hc, List.getD_eq_getElem?_getD, List.getElem?_range hj,
    Option.getD_some]

theorem contig_blockPrefix (cfg : Config) (hc : cfg.strategy = Strategy.STRAT_CONTIG)
    (E k : Nat) (hk : k ≤ SUBSPACE) (hrep : SUBSPACE * E ≤ UINT64_MAX) :
    blockPrefix cfg E k = List.range (k * E) := by
  unfold blockPrefix
  rw [contig_schedule cfg hc, List.take_range, Nat.min_eq_left hk, ← flatMap_blocks]
  apply List.flatMap_congr
  intro id hid
  exact scanned_exact _ id hrep (lt_of_lt_of_le (List.mem_range.mp hid) hk)

/-- In the contiguous order, what the worker has tested when it leaves on a hit is
`0, 1, .., x` where `x` is the index of the hit. -/
theorem contig_tested (cfg : Config) (hc : cfg.strategy = Strategy.STRAT_CONTIG)
    (E c r : Nat) (hc1 : 1 ≤ c) (hcle : c ≤ SUBSPACE) (hr : r < E)
    (hrep : SUBSPACE * E ≤ UINT64_MAX) :
    scan_idx ((schedule cfg).getD (c - 1) 0) E r = (c - 1) * E + r ∧
    blockPrefix cfg E (c - 1) ++
        (List.range (r + 1)).map (fun x => scan_idx ((schedule cfg).getD (c - 1) 0) E x) =
      List.range ((c - 1) * E + r + 1) := by
  have hid : (schedule cfg).getD (c - 1) 0 = c - 1 := contig_getD cfg hc _ (by omega)
  have hlt : c - 1 < SUBSPACE := by omega
  rw [hid]
  refine ⟨(scan_idx_exact E (c - 1) r hrep hlt hr).1, ?_⟩
  rw [contig_blockPrefix cfg hc E (c - 1) (by omega) hrep]
  conv_rhs => rw [Nat.add_assoc, List.range_add]
  congr 1
  apply List.map_congr_left
  intro x hx
  exact (scan_idx_exact E (c - 1) x hrep hlt (by have := List.mem_range.mp hx; omega)).1

/-- When the targets met in `0, 1, .., x` are exactly `[x]`, `x` is the least target. -/
theorem first_hit_is_min (T : List Nat) (p : Nat → Bool) (hp : ∀ i, p i = true ↔ i ∈ T)
    (x m : Nat) (hf : (List.range (x + 1)).filter p = [x]) (hm : m ∈ T)
    (hmin : ∀ t, t ∈ T → m ≤ t) : x = m := by
  have hx : x ∈ (List.range (x + 1)).filter p := by rw [hf]; exact List.mem_singleton.mpr rfl
  have hxT : x ∈ T := (hp x).mp (List.mem_filter.mp hx).2
  have hle : m ≤ x := hmin x hxT
  have hmem : m ∈ (List.range (x + 1)).filter p :=
    List.mem_filter.mpr ⟨List.mem_range.mpr (by omega), (hp m).mpr hm⟩
  rw [hf] at hmem
  exact (List.mem_singleton.mp hmem).symm

theorem exists_least (T : List Nat) (hT : T ≠ []) :
    ∃ m, m ∈ T ∧ ∀ t, t ∈ T → m ≤ t := by
  induction T with
  | nil => exact absurd rfl hT
  | cons a rest ih =>
    cases rest with
    | nil => exact ⟨a, by simp, by simp⟩
    | cons b rest' =>
      obtain ⟨m, hm, hmin⟩ := ih (by simp)
      by_cases h : a ≤ m
      · refine ⟨a, by simp, ?_⟩
        intro t ht
        rcases List.mem_cons.mp ht with h1 | h1
        · omega
        · exact le_trans h (hmin t h1)
      · refine ⟨m, List.mem_cons_of_mem _ hm, ?_⟩
        intro t ht
        rcases List.mem_cons.mp ht with h1 | h1
        · omega
        · exact hmin t h1

/-- What `OneWorkerInv` says of a stop-on-first run in the contiguous order, for the
least target `m`: either nothing has been found yet and the worker is still in its loop,
or the worker has sent the notification for `m` and left, and then the master either has
not received it yet or has received it and broadcast the stop once. -/
theorem stop_on_first_states (cfg : Config) (E : Nat) (T : List Nat) (m : Nat)
    (hrep : SUBSPACE * E ≤ UINT64_MAX) (hsof : cfg.stop_on_first = true)
    (hc : cfg.strategy = Strategy.STRAT_CONTIG) (hn : cfg.n_live = (T.length : Int))
    (hm : m ∈ T) (hmin : ∀ t, t ∈ T → m ≤ t) (hmlt : m < SUBSPACE * E)
    (s : Farm) (hs : Reachable cfg E T 2 s) :
    ∃ w, s.procs = [w] ∧ s.master.workers = 1 ∧ s.received ++ w.found_q = w.sent ∧
      ((w.sent = [] ∧ s.received = [] ∧ s.broadcasts = 0 ∧
          s.master.stop_broadcasted = false ∧ w.hasExited = false) ∨
        (w.sent = [m] ∧ w.pc = WorkerPc.exited ExitReason.foundHere ∧
          ((s.received = [] ∧ s.broadcasts = 0 ∧ s.master.stop_broadcasted = false) ∨
            (s.received = [m] ∧ s.broadcasts = 1 ∧
              s.master.stop_broadcasted = true)))) := by
  obtain ⟨w, hp, hmi, hsent, hrecv, hpc⟩ := inv_reachable cfg E T s hs
  have hquiet : Quiet cfg s w → w.sent = [] ∧ s.received = [] ∧ s.broadcasts = 0 ∧
      s.master.stop_broadcasted = false := by
    rintro ⟨h1, -, h3, h4⟩
    have h0 := h4 hsof
    refine ⟨h0, ?_, h3, h1⟩
    rw [h0] at hrecv
    exact (List.append_eq_nil.mp hrecv).1
  -- the schedule is not exhausted without a hit
  have hfull : w.sent = [] → w.tested = blockPrefix cfg E SUBSPACE → False := by
    intro h0 htest
    rw [contig_blockPrefix cfg hc E SUBSPACE (le_refl _) hrep] at htest
    have hmem : m ∈ w.sent := by
      rw [hsent, htest]
      exact List.mem_filter.mpr ⟨List.mem_range.mpr hmlt, (is_target_cfg cfg T hn m).mpr hm⟩
    rw [h0] at hmem
    cases hmem
  cases hpcv : w.pc with
  | top =>
    rw [hpcv] at hpc
    obtain ⟨a, b, c, d⟩ := hquiet hpc.1
    exact ⟨w, hp, hpc.2.1, hrecv, Or.inl ⟨a, b, c, d, by simp [Worker.hasExited, hpcv]⟩⟩
  | scanning id r fh =>
    rw [hpcv] at hpc
    obtain ⟨a, b, c, d⟩ := hquiet hpc.1
    exact ⟨w, hp, hpc.2.1, hrecv, Or.inl ⟨a, b, c, d, by simp [Worker.hasExited, hpcv]⟩⟩
  | waiting =>
    rw [hpcv] at hpc
    obtain ⟨a, b, c, d⟩ := hquiet hpc.1
    rcases hpc.2 with h | h | h
    · exact ⟨w, hp, h.2.2.1, hrecv, Or.inl ⟨a, b, c, d, by simp [Worker.hasExited, hpcv]⟩⟩
    · exact ⟨w, hp, h.2.2.2.1, hrecv,
        Or.inl ⟨a, b, c, d, by simp [Worker.hasExited, hpcv]⟩⟩
    · exact absurd (hfull a h.2.2.2.2.1) id
  | exited why =>
    rw [hpcv] at hpc
    cases why with
    | stopSeen => exact absurd hpc (by simp [PcInv])
    | noMoreWork =>
      obtain ⟨a, -, -, -⟩ := hquiet hpc.1
      exact absurd (hfull a hpc.2.2.2.2.2.1) id
    | foundHere =>
      obtain ⟨-, hwk, -, -, hc1, r, hr, htest, hsnt, hcases⟩ := hpc
      obtain ⟨hidx, hrange⟩ := contig_tested cfg hc E _ r hc1 hmi.1 hr hrep
      rw [hrange] at htest
      rw [hidx] at hsnt hcases
      have hfilter : (List.range ((cursor cfg s.master - 1) * E + r + 1)).filter
          (fun idx => is_target idx T cfg.n_live) = [(cursor cfg s.master - 1) * E + r] := by
        rw [← htest, ← hsent, hsnt]
      have hx := first_hit_is_min T (fun idx => is_target idx T cfg.n_live)
        (is_target_cfg cfg T hn) _ m hfilter hm hmin
      rw [hx] at hsnt hcases
      refine ⟨w, hp, hwk, hrecv, Or.inr ⟨hsnt, hpcv, ?_⟩⟩
      rcases hcases with ⟨h1, -, h3, h4⟩ | ⟨h1, -, h3, h4⟩
      · exact Or.inl ⟨h4, h3, h1⟩
      · exact Or.inr ⟨h4, h3, h1⟩

/-- The stop-on-first run in the contiguous order reaches the state in which the master
has received the notification for the least target and broadcast the stop. -/
theorem stop_reachable (cfg : Config) (E : Nat) (T : List Nat) (m : Nat)
    (hrep : SUBSPACE * E ≤ UINT64_MAX) (hsof : cfg.stop_on_first = true)
    (hc : cfg.strategy = Strategy.STRAT_CONTIG) (hn : cfg.n_live = (T.length : Int))
    (hm : m ∈ T) (hmin : ∀ t, t ∈ T → m ≤ t) (hmlt : m < SUBSPACE * E) :
    ∃ s w, Reachable cfg E T 2 s ∧ s.procs = [w] ∧ s.received = [m] ∧ s.broadcasts = 1 ∧
      s.master.stop_broadcasted = true ∧ s.master.workers = 1 ∧ w.sent = [m] ∧
      w.found_q = [] ∧ w.pc = WorkerPc.exited ExitReason.foundHere := by
  have hstates := stop_on_first_states cfg E T m hrep hsof hc hn hm hmin hmlt
  obtain ⟨s, w, hs, hp, why, hwhy⟩ := exit_reachable cfg E T
  obtain ⟨w', hp', hwk, hrecv, hcase⟩ := hstates s hs
  rw [hp] at hp'
  obtain rfl : w = w' := (List.cons.inj hp').1
  rcases hcase with ⟨-, -, -, -, hne⟩ | ⟨hsnt, hpc, hcase2⟩
  · simp [Worker.hasExited, hwhy] at hne
  rcases hcase2 with ⟨hr, -, -⟩ | ⟨hr, hb, hst⟩
  · -- the notification is in flight: the master receives it
    have hq : w.found_q = [m] := by
      rw [hr, hsnt, List.nil_append] at hrecv
      exact hrecv
    have hstep : ∃ s1, farm_step cfg E T s (Action.masterFound 0) = some s1 ∧
        s1.received = s.received ++ [m] := by
      rw [farm_step_found_one cfg E T s w hp, if_pos ⟨by omega, rfl⟩, hq]
      exact ⟨_, rfl, rfl⟩
    obtain ⟨s1, hs1, hrec1⟩ := hstep
    have hreach1 : Reachable cfg E T 2 s1 :=
      reachable_exec cfg E T 2 s s1 [Action.masterFound 0] hs
        (exec_single cfg E T s s1 _ hs1)
    obtain ⟨w1, hp1, hwk1, hrecv1, hcase1⟩ := hstates s1 hreach1
    rw [hr, List.nil_append] at hrec1
    rcases hcase1 with ⟨-, hr1, -⟩ | ⟨hsnt1, hpc1, hcase3⟩
    · rw [hr1] at hrec1; cases hrec1
    rcases hcase3 with ⟨hr1, -, -⟩ | ⟨hr1, hb1, hst1⟩
    · rw [hr1] at hrec1; cases hrec1
    · refine ⟨s1, w1, hreach1, hp1, hr1, hb1, hst1, hwk1, hsnt1, ?_, hpc1⟩
      rw [hr1, hsnt1] at hrecv1
      simpa using hrecv1
  · refine ⟨s, w, hs, hp, hr, hb, hst, hwk, hsnt, ?_, hpc⟩
    rw [hr, hsnt] at hrecv
    simpa using hrecv

/-- C11 (stop-on-first run with one worker).  For a length `L ≥ 2` with `36 ^ L`
representable and a non-empty set of targets below `36 ^ L`, with one worker, the
contiguous order and `stop_on_first` enabled, let `m` be the smallest target.  In every
state of the run the notifications sent by the worker and those received by the master
are none or the single index `m`, the stop has been broadcast at most once, and it has
been broadcast exactly when the master has received the notification for `m`.  And the
run does reach the state in which the master has received exactly that one notification
and has broadcast the stop once, the worker having left its loop after its hit. -/
theorem stop_on_first_one_worker (L : Nat) (cfg : Config) (T : List Nat) (hL : 2 ≤ L)
    (hrep : 36 ^ L ≤ UINT64_MAX) (hlen : cfg.len = (L : Int))
    (hsof : cfg.stop_on_first = true) (hc : cfg.strategy = Strategy.STRAT_CONTIG)
    (hn : cfg.n_live = (T.length : Int)) (hT : T ≠ [])
    (hlt : ∀ t, t ∈ T → t < 36 ^ L) :
    powu RADIX (cfg.len - 2) = Except.ok (36 ^ (L - 2)) ∧
    ∃ m, m ∈ T ∧ (∀ t, t ∈ T → m ≤ t) ∧
      (∀ s, Reachable cfg (36 ^ (L - 2)) T 2 s →
        ∃ w, s.procs = [w] ∧ (w.sent = [] ∨ w.sent = [m]) ∧
          (s.received = [] ∨ s.received = [m]) ∧ s.broadcasts ≤ 1 ∧
          (s.broadcasts = 1 ↔ s.received = [m]) ∧
          (s.master.stop_broadcasted = true ↔ s.received = [m])) ∧
      (∃ s w, Reachable cfg (36 ^ (L - 2)) T 2 s ∧ s.procs = [w] ∧
        s.received = [m] ∧ s.broadcasts = 1 ∧ s.master.stop_broadcasted = true ∧
        w.sent = [m] ∧ w.found_q = [] ∧
        w.pc = WorkerPc.exited ExitReason.foundHere) := by
  have hsplit := pow_split L hL
  have hrep' : SUBSPACE * 36 ^ (L - 2) ≤ UINT64_MAX := by rw [← hsplit]; exact hrep
  have hle : 36 ^ (L - 2) ≤ 36 ^ L := Nat.pow_le_pow_right (by norm_num) (by omega)
  have hpow : powu RADIX (cfg.len - 2) = Except.ok (36 ^ (L - 2)) := by
    have hcast : cfg.len - 2 = ((L - 2 : Nat) : Int) := by rw [hlen]; omega
    rw [hcast]
    exact (powu_exact 36 (L - 2) (by norm_num)).1 (le_trans hle hrep)
  obtain ⟨m, hm, hmin⟩ := exists_least T hT
  have hmlt : m < SUBSPACE * 36 ^ (L - 2) := by rw [← hsplit]; exact hlt m hm
  refine ⟨hpow, m, hm, hmin, ?_, ?_⟩
  · intro s hs
    obtain ⟨w, hp, -, -, hcase⟩ :=
      stop_on_first_states cfg _ T m hrep' hsof hc hn hm hmin hmlt s hs
    refine ⟨w, hp, ?_⟩
    rcases hcase with ⟨h1, h2, h3, h4, -⟩ | ⟨h1, -, ⟨h2, h3, h4⟩ | ⟨h2, h3, h4⟩⟩
    · refine ⟨Or.inl h1, Or.inl h2, by omega, ?_, ?_⟩
      · rw [h3, h2]; simp
      · rw [h4, h2]; simp
    · refine ⟨Or.inr h1, Or.inl h2, by omega, ?_, ?_⟩
      · rw [h3, h2]; simp
      · rw [h4, h2]; simp
    · refine ⟨Or.inr h1, Or.inr h2, by omega, ?_, ?_⟩
      · rw [h3, h2]; simp
      · rw [h4, h2]; simp
  · obtain ⟨s, w, hs, hp, hr, hb, hst, -, hsnt, hq, hpc⟩ :=
      stop_reachable cfg _ T m hrep' hsof hc hn hm hmin hmlt
    exact ⟨s, w, hs, hp, hr, hb, hst, hsnt, hq, hpc⟩

/-- Witness of `stop_on_first_one_worker`: scenario 1 of the specification, length 2 and
the targets 5 and 1000. -/
theorem stop_on_first_one_worker_witness :
    powu RADIX ((scenarioCfg true Strategy.STRAT_CONTIG).len - 2) =
      Except.ok (36 ^ (2 - 2)) ∧
    ∃ m, m ∈ scenarioTargets ∧ (∀ t, t ∈ scenarioTargets → m ≤ t) ∧
      (∀ s, Reachable (scenarioCfg true Strategy.STRAT_CONTIG) (36 ^ (2 - 2))
          scenarioTargets 2 s →
        ∃ w, s.procs = [w] ∧ (w.sent = [] ∨ w.sent = [m]) ∧
          (s.received = [] ∨ s.received = [m]) ∧ s.broadcasts ≤ 1 ∧
          (s.broadcasts = 1 ↔ s.received = [m]) ∧
          (s.master.stop_broadcasted = true ↔ s.received = [m])) ∧
      (∃ s w, Reachable (scenarioCfg true Strategy.STRAT_CONTIG) (36 ^ (2 - 2))
          scenarioTargets 2 s ∧ s.procs = [w] ∧
        s.received = [m] ∧ s.broadcasts = 1 ∧ s.master.stop_broadcasted = true ∧
        w.sent = [m] ∧ w.found_q = [] ∧
        w.pc = WorkerPc.exited ExitReason.foundHere) :=
  stop_on_first_one_worker 2 (scenarioCfg true Strategy.STRAT_CONTIG) scenarioTargets
    (by decide) (by decide) rfl rfl rfl rfl (by decide) (by decide)

end AlgoritmoMpi
namespace AlgoritmoMpi

/-! ### The master after a stop -/

/-- C13 (coordinator termination after a stop), evaluated on scenario 1 of the
specification: length 2, targets 5 and 1000, one worker, contiguous order,
`stop_on_first` enabled.  The run reaches a state in which the stop has been broadcast and
the only worker has left its loop (on its hit, without a last request), while the
master's counter `workers` is still 1; and from that state neither the master nor the
worker can make a step, so the counter never reaches zero and the loop
`while (workers > 0)` of the master never ends. -/
theorem finder_is_never_counted :
    ∃ s, Reachable (scenarioCfg true Strategy.STRAT_CONTIG) 1 scenarioTargets 2 s ∧
      s.master.stop_broadcasted = true ∧
      (∀ w, w ∈ s.procs → w.hasExited = true) ∧
      s.master.workers = 1 ∧
      ∀ a, farm_step (scenarioCfg true Strategy.STRAT_CONTIG) 1 scenarioTargets s a =
        none := by
  refine ⟨{ master := { workers := 1, next_task := 6, ids := [], pos := 0,
                        stop_broadcasted := true }
            procs := [{ pc := WorkerPc.exited ExitReason.foundHere, req := false,
                        assign := none, stops := 1, found_q := [],
                        tested := [0, 1, 2, 3, 4, 5], sent := [5],
                        completed := [0, 1, 2, 3, 4] }]
            received := [5]
            broadcasts := 1 }, ⟨scenarioRun, by decide⟩, rfl, by decide, rfl, ?_⟩
  intro a
  cases a with
  | masterFound i =>
    rw [farm_step_found_one _ _ _ _ _ rfl]
    simp
  | masterRequest i =>
    rw [farm_step_request_one _ _ _ _ _ rfl]
    simp
  | worker i b =>
    rw [farm_step_worker_one _ _ _ _ _ rfl]
    simp [worker_step]

end AlgoritmoMpi

namespace Bruteforce

theorem stripeFrom_spec (N maxk : Nat) (hN : 1 ≤ N) (hNint : N ≤ INT_MAX)
    (hmax : maxk ≤ 2 ^ 56 - 1) :
    ∀ fuel k, k ≤ maxk + N → maxk + 2 ≤ fuel + k → 1 ≤ fuel →
      ∃ keys, stripeFrom N maxk fuel k = some keys ∧ keys.Nodup ∧
        ∀ x, x ∈ keys ↔ (k ≤ x ∧ x ≤ maxk ∧ x % N = k % N) := by
  intro fuel
  induction fuel with
  | zero => intro k _ _ h; omega
  | succ fuel ih =>
    intro k hk hfuel _
    unfold stripeFrom
    by_cases hle : k ≤ maxk
    · have hwrap : (k + N) % U64 = k + N := by
        apply Nat.mod_eq_of_lt
        simp only [U64, INT_MAX] at *
        omega
      rw [if_pos hle, hwrap]
      obtain ⟨keys, hk1, hk2, hk3⟩ := ih (k + N) (by omega) (by omega) (by omega)
      refine ⟨k :: keys, by simp [hk1], ?_, ?_⟩
      · refine List.nodup_cons.mpr ⟨?_, hk2⟩
        intro hmem
        have := (hk3 k).mp hmem
        omega
      · intro x
        rw [List.mem_cons, hk3]
        constructor
        · rintro (rfl | ⟨h1, h2, h3⟩)
          · exact ⟨le_refl _, hle, rfl⟩
          · refine ⟨by omega, h2, ?_⟩
            rw [h3, Nat.add_mod_right]
        · rintro ⟨h1, h2, h3⟩
          by_cases hx : x = k
          · exact Or.inl hx
          · right
            refine ⟨?_, h2, ?_⟩
            · have hlt : k < x := by omega
              have hdvd : N ∣ x - k := (Nat.modEq_iff_dvd' (le_of_lt hlt)).mp h3.symm
              have := Nat.le_of_dvd (by omega) hdvd
              omega
            · rw [h3, Nat.add_mod_right]
    · rw [if_neg hle]
      refine ⟨[], rfl, List.nodup_nil, ?_⟩
      intro x
      simp only [List.not_mem_nil, false_iff]
      omega

theorem stripeFrom_fuel_mono (N maxk : Nat) :
    ∀ fuel k keys, stripeFrom N maxk fuel k = some keys →
      ∀ fuel', fuel ≤ fuel' → stripeFrom N maxk fuel' k = some keys := by
  intro fuel
  induction fuel with
  | zero => intro k keys h; simp [stripeFrom] at h
  | succ fuel ih =>
    intro k keys h fuel' hle
    obtain ⟨m, rfl⟩ : ∃ m, fuel' = m + 1 := ⟨fuel' - 1, by omega⟩
    unfold stripeFrom at h ⊢
    by_cases hk : k ≤ maxk
    · rw [if_pos hk] at h ⊢
      cases hrec : stripeFrom N maxk fuel ((k + N) % U64) with
      | none => rw [hrec] at h; simp at h
      | some ks =>
        rw [hrec] at h
        rw [ih _ ks hrec m (by omega)]
        exact h
    · rw [if_neg hk] at h ⊢
      exact h

/-- C1 (striped partition).  For `1 ≤ N ≤ INT_MAX` ranks and a key bound `maxk ≤ 2^56 - 1`,
the loop `for (k = r; k <= maxk; k += N)` of rank `r < N` ends (any fuel of at least
`maxk + 2` steps gives the same list) and visits, without repetition, exactly the keys
`k ≤ maxk` with `k mod N = r`; hence a key is at most `maxk` iff some rank visits it, and
the stripes of two different ranks share no key. -/
theorem striped_partition (N maxk : Nat) (hN : 1 ≤ N) (hNint : N ≤ INT_MAX)
    (hmax : maxk ≤ 2 ^ 56 - 1) :
    (∀ r, r < N → ∀ fuel, maxk + 2 ≤ fuel →
        stripe N maxk r fuel = some (stripeKeys N maxk r)) ∧
    (∀ r, r < N → (stripeKeys N maxk r).Nodup ∧
        ∀ k, k ∈ stripeKeys N maxk r ↔ (k ≤ maxk ∧ k % N = r)) ∧
    (∀ k, k ≤ maxk ↔ ∃ r, r < N ∧ k ∈ stripeKeys N maxk r) ∧
    (∀ r₁ r₂, r₁ < N → r₂ < N → r₁ ≠ r₂ →
        ∀ k, k ∈ stripeKeys N maxk r₁ → k ∉ stripeKeys N maxk r₂) := by
  have key : ∀ r, r < N → ∃ keys, stripe N maxk r (maxk + 2) = some keys ∧ keys.Nodup ∧
      ∀ x, x ∈ keys ↔ (x ≤ maxk ∧ x % N = r) := by
    intro r hr
    obtain ⟨keys, h1, h2, h3⟩ :=
      stripeFrom_spec N maxk hN hNint hmax (maxk + 2) r (by omega) (by omega) (by omega)
    refine ⟨keys, h1, h2, ?_⟩
    intro x
    rw [h3, Nat.mod_eq_of_lt hr]
    constructor
    · rintro ⟨_, h, h'⟩; exact ⟨h, h'⟩
    · rintro ⟨h, h'⟩
      exact ⟨by rw [← h']; exact Nat.mod_le _ _, h, h'⟩
  have keys_eq : ∀ r, r < N → stripe N maxk r (maxk + 2) = some (stripeKeys N maxk r) := by
    intro r hr
    obtain ⟨keys, h1, -, -⟩ := key r hr
    simp [stripeKeys, h1]
  have mem : ∀ r, r < N → ∀ k, k ∈ stripeKeys N maxk r ↔ (k ≤ maxk ∧ k % N = r) := by
    intro r hr
    obtain ⟨keys, h1, -, h3⟩ := key r hr
    have : stripeKeys N maxk r = keys := by simp [stripeKeys, h1]
    rw [this]; exact h3
  refine ⟨?_, ?_, ?_, ?_⟩
  · intro r hr fuel hfuel
    exact stripeFrom_fuel_mono N maxk (maxk + 2) r _ (keys_eq r hr) fuel hfuel
  · intro r hr
    refine ⟨?_, mem r hr⟩
    obtain ⟨keys, h1, h2, -⟩ := key r hr
    have : stripeKeys N maxk r = keys := by simp [stripeKeys, h1]
    rw [this]; exact h2
  · intro k
    constructor
    · intro hk
      exact ⟨k % N, Nat.mod_lt _ (by omega), (mem _ (Nat.mod_lt _ (by omega)) k).mpr ⟨hk, rfl⟩⟩
    · rintro ⟨r, hr, hmem⟩
      exact ((mem r hr k).mp hmem).1
  · intro r₁ r₂ h1 h2 hne k hk1 hk2
    have a := ((mem r₁ h1 k).mp hk1).2
    have b := ((mem r₂ h2 k).mp hk2).2
    exact hne (a.symm.trans b)

/-- Witness of `striped_partition`: three ranks and the key bound `maxk = 10`; rank 1
visits the keys 1, 4, 7 and 10. -/
theorem striped_partition_witness :
    stripe 3 10 1 12 = some [1, 4, 7, 10] ∧
    (∀ r, r < 3 → ∀ fuel, 10 + 2 ≤ fuel →
        stripe 3 10 r fuel = some (stripeKeys 3 10 r)) ∧
    (∀ r, r < 3 → (stripeKeys 3 10 r).Nodup ∧
        ∀ k, k ∈ stripeKeys 3 10 r ↔ (k ≤ 10 ∧ k % 3 = r)) ∧
    (∀ k, k ≤ 10 ↔ ∃ r, r < 3 ∧ k ∈ stripeKeys 3 10 r) ∧
    (∀ r₁ r₂, r₁ < 3 → r₂ < 3 → r₁ ≠ r₂ →
        ∀ k, k ∈ stripeKeys 3 10 r₁ → k ∉ stripeKeys 3 10 r₂) :=
  ⟨by decide, striped_partition 3 10 (by decide) (by decide) (by decide)⟩

end Bruteforce
namespace Bruteforce

/-! ### The collective votes -/

set_option maxRecDepth 100000

/-- C7 (brute-force correctness), evaluated on the case of the specification: key bound
`maxk = 1023`, three ranks, only the key 777 matches.  The search does not end with
`found_global = 777` on every rank: rank 0 finds the key and waits in its second vote,
which ranks 1 and 2 never call; they leave the loop with `f_global = 0` and
`found_global = 0`. -/
theorem search_scenario3_stuck :
    search (fun k => k == 777) 3 (maxkOf 10) =
      some [
        { id := 0, k := 777, f_local := true, found_local := 777, f_global := false,
          found_global := 0, votes := 2, status := Status.voting },
        { id := 1, k := 1024, f_local := false, found_local := 0, f_global := false,
          found_global := 0, votes := 1, status := Status.left },
        { id := 2, k := 1025, f_local := false, found_local := 0, f_global := false,
          found_global := 0, votes := 1, status := Status.left }] := by
  decide

/-- C8 (lockstep voting), evaluated.  With three ranks and the key bound `maxk = 1`
(`-bits 1`) and no matching key, ranks 0 and 1 call the vote once and rank 2 never: the
numbers of keys `k` of the stripes with `k % 4096 == id` are 1, 1 and 0, and the run ends
with ranks 0 and 1 blocked in the vote.  In the case of the specification (`maxk = 1023`,
only the key 777 matches) the ranks call the vote 2, 1 and 1 times. -/
theorem votes_not_in_lockstep :
    (votePoints 3 (maxkOf 1) 0).length = 1 ∧
    (votePoints 3 (maxkOf 1) 1).length = 1 ∧
    (votePoints 3 (maxkOf 1) 2).length = 0 ∧
    (search (fun _ => false) 3 (maxkOf 1)).map
        (fun rs => rs.map (fun r => (r.votes, r.status))) =
      some [(1, Status.voting), (1, Status.voting), (0, Status.left)] ∧
    (search (fun k => k == 777) 3 (maxkOf 10)).map (fun rs => rs.map (fun r => r.votes)) =
      some [2, 1, 1] := by
  decide

end Bruteforce

namespace Bruteforce

/-! ### Crib matching -/

theorem memmemLoop_iff (hay ndl : List Nat) (nlen : Nat) : ∀ n i,
    memmemLoop hay ndl nlen n i = true ↔
      ∃ j, i ≤ j ∧ j < i + n ∧ (hay.drop j).take nlen = ndl.take nlen := by
  intro n
  induction n with
  | zero =>
    intro i
    simp only [memmemLoop, Bool.false_eq_true, false_iff]
    rintro ⟨j, h1, h2, -⟩
    omega
  | succ n ih =>
    intro i
    rw [memmemLoop]
    by_cases h : (hay.drop i).take nlen = ndl.take nlen
    · have hc : memcmp_eq (hay.drop i) ndl nlen = true := by simp [memcmp_eq, h]
      rw [if_pos hc]
      simp only [true_iff]
      exact ⟨i, le_refl _, by omega, h⟩
    · have hc : ¬ memcmp_eq (hay.drop i) ndl nlen = true := by simp [memcmp_eq, h]
      rw [if_neg hc, ih]
      constructor
      · rintro ⟨j, h1, h2, h3⟩
        exact ⟨j, by omega, by omega, h3⟩
      · rintro ⟨j, h1, h2, h3⟩
        have hne : j ≠ i := fun he => h (he ▸ h3)
        exact ⟨j, by omega, by omega, h3⟩

theorem infix_iff_drop_take (ndl hay : List Nat) :
    ndl <:+: hay ↔
      ∃ j, j + ndl.length ≤ hay.length ∧ (hay.drop j).take ndl.length = ndl := by
  constructor
  · rintro ⟨s, t, rfl⟩
    refine ⟨s.length, by simp, ?_⟩
    simp [List.append_assoc]
  · rintro ⟨j, -, h⟩
    refine ⟨hay.take j, (hay.drop j).drop ndl.length, ?_⟩
    have e := List.take_append_drop ndl.length (hay.drop j)
    rw [h] at e
    rw [List.append_assoc, e, List.take_append_drop]

theorem memmem_naive_iff (hay ndl : List Nat) (hndl : ndl ≠ []) (hhay : hay ≠ []) :
    memmem_naive hay (hay.length : Int) ndl (ndl.length : Int) = true ↔ ndl <:+: hay := by
  have h1 : 0 < ndl.length := List.length_pos.mpr hndl
  have h2 : 0 < hay.length := List.length_pos.mpr hhay
  unfold memmem_naive
  by_cases hgt : ndl.length > hay.length
  · have hc : ((ndl.length : Int) ≤ 0 ∨ (hay.length : Int) ≤ 0 ∨
        (ndl.length : Int) > (hay.length : Int)) := Or.inr (Or.inr (by omega))
    rw [if_pos hc]
    simp only [Bool.false_eq_true, false_iff]
    intro hin
    have := hin.length_le
    omega
  · have hc : ¬ ((ndl.length : Int) ≤ 0 ∨ (hay.length : Int) ≤ 0 ∨
        (ndl.length : Int) > (hay.length : Int)) := by omega
    have hn : ((hay.length : Int) - (ndl.length : Int) + 1).toNat =
        hay.length - ndl.length + 1 := by omega
    rw [if_neg hc, Int.toNat_ofNat, hn, memmemLoop_iff, infix_iff_drop_take, List.take_length]
    constructor
    · rintro ⟨j, -, hj, h⟩
      exact ⟨j, by omega, h⟩
    · rintro ⟨j, hj, h⟩
      exact ⟨j, Nat.zero_le _, by omega, h⟩

theorem cstrBytes_append_zero (p rest : List Nat) :
    cstrBytes (p ++ 0 :: rest) = cstrBytes p := by
  unfold cstrBytes
  induction p with
  | nil => simp
  | cons x xs ih =>
    simp only [List.cons_append, List.takeWhile_cons]
    rw [ih]

theorem headD_ne_zero_iff (ct : List Nat) : ct.headD 0 ≠ 0 ↔ cstrBytes ct ≠ [] := by
  unfold cstrBytes
  cases ct with
  | nil => simp
  | cons c cs =>
    by_cases hc : c = 0
    · simp [hc]
    · simp [List.takeWhile_cons, hc]

theorem contains_crib_bytes (p : List Nat) (hp : p ≠ []) (ct : Option (List Nat))
    (cb : List Nat) (hcb : cb ≠ []) :
    contains_crib_any p (p.length : Int) ct (some cb) (cb.length : Int) = true ↔
      cb <:+: p := by
  have h1 : 0 < cb.length := List.length_pos.mpr hcb
  have hc : (some cb).isSome = true ∧ (cb.length : Int) > 0 := ⟨rfl, by omega⟩
  unfold contains_crib_any
  rw [if_pos hc]
  exact memmem_naive_iff p cb hcb hp

theorem contains_crib_text (p : List Nat) (ct : List Nat) (hct : cstrBytes ct ≠ [])
    (cb : Option (List Nat)) (len : Int) (hsel : cb = none ∨ len ≤ 0) :
    contains_crib_any p (p.length : Int) (some ct) cb len = true ↔
      cstrBytes ct <:+: cstrBytes p := by
  have hc : ¬ (cb.isSome = true ∧ len > 0) := by
    rintro ⟨h1, h2⟩
    rcases hsel with h | h
    · rw [h] at h1; cases h1
    · omega
  unfold contains_crib_any
  rw [if_neg hc]
  simp only
  rw [if_pos ((headD_ne_zero_iff ct).mpr hct), Int.toNat_ofNat, List.take_length]
  unfold strstr_found
  rw [cstrBytes_append_zero]
  simp

/-- C10 (decrypt-and-match oracle), as amended.  For every decrypted buffer `p` of
`n > 0` bytes: when a non-empty crib-bytes sequence is supplied, `contains_crib_any`
returns true iff the crib-bytes occur in `p` as a contiguous run, matched against all `n`
bytes; when none is supplied (a `NULL` pointer or a length that is not positive) and the
text crib is non-empty, it returns true iff the bytes of the text crib occur as a
contiguous run in the bytes of `p` that precede its first zero byte (all `n` bytes when
`p` holds no zero byte). -/
theorem crib_oracle (p : List Nat) (hp : 0 < p.length) :
    (∀ (ct : Option (List Nat)) (cb : List Nat), cb ≠ [] →
      (contains_crib_any p (p.length : Int) ct (some cb) (cb.length : Int) = true ↔
        cb <:+: p)) ∧
    (∀ (ct : List Nat) (cb : Option (List Nat)) (len : Int),
      (cb = none ∨ len ≤ 0) → cstrBytes ct ≠ [] →
      (contains_crib_any p (p.length : Int) (some ct) cb len = true ↔
        cstrBytes ct <:+: p.takeWhile (fun b => b ≠ 0))) ∧
    ((∀ b, b ∈ p → b ≠ 0) → p.takeWhile (fun b => b ≠ 0) = p) := by
  have hne : p ≠ [] := List.length_pos.mp hp
  refine ⟨fun ct cb hcb => contains_crib_bytes p hne ct cb hcb, ?_, ?_⟩
  · intro ct cb len hsel hct
    exact contains_crib_text p ct hct cb len hsel
  · intro h
    rw [List.takeWhile_eq_self_iff]
    intro b hb
    simpa using h b hb

/-- Witness of `crib_oracle`: the eight bytes of ` the now` and the text crib `the`. -/
theorem crib_oracle_witness :
    contains_crib_any [32, 116, 104, 101, 32, 110, 111, 119] 8 (some [116, 104, 101, 0])
      none 0 = true ∧
    ((∀ (ct : Option (List Nat)) (cb : List Nat), cb ≠ [] →
      (contains_crib_any [32, 116, 104, 101, 32, 110, 111, 119]
          (([32, 116, 104, 101, 32, 110, 111, 119] : List Nat).length : Int) ct (some cb)
          (cb.length : Int) = true ↔
        cb <:+: [32, 116, 104, 101, 32, 110, 111, 119])) ∧
    (∀ (ct : List Nat) (cb : Option (List Nat)) (len : Int),
      (cb = none ∨ len ≤ 0) → cstrBytes ct ≠ [] →
      (contains_crib_any [32, 116, 104, 101, 32, 110, 111, 119]
          (([32, 116, 104, 101, 32, 110, 111, 119] : List Nat).length : Int) (some ct) cb
          len = true ↔
        cstrBytes ct <:+:
          ([32, 116, 104, 101, 32, 110, 111, 119] : List Nat).takeWhile
            (fun b => b ≠ 0))) ∧
    ((∀ b, b ∈ ([32, 116, 104, 101, 32, 110, 111, 119] : List Nat) → b ≠ 0) →
      ([32, 116, 104, 101, 32, 110, 111, 119] : List Nat).takeWhile (fun b => b ≠ 0) =
        [32, 116, 104, 101, 32, 110, 111, 119])) :=
  ⟨by decide, crib_oracle [32, 116, 104, 101, 32, 110, 111, 119] (by decide)⟩

/-- Counterexample to C10 as stated: in the eight bytes `0, 't', 'h', 'e', ' ', 'n', 'o',
'w'` the text crib `the` occurs as a contiguous run, yet `contains_crib_any` returns
false when no crib-bytes are supplied: `strstr` stops at the zero byte in front. -/
theorem crib_text_stops_at_zero :
    ¬ (contains_crib_any [0, 116, 104, 101, 32, 110, 111, 119] 8 (some [116, 104, 101, 0])
          none 0 = true ↔
        [116, 104, 101] <:+: [0, 116, 104, 101, 32, 110, 111, 119]) := by
  decide

end Bruteforce

